import Mathlib

/-! # LP5: sequential and OpenMP reductions

A shallow embedding of `HPC Final/minmax_parallel_red.cpp` (minimum, maximum, sum and
average of a `vector<int>`) and of `HPC Final/AIML.cpp` (closed-form simple linear
regression), each in its sequential and its `#pragma omp parallel for reduction` form.

* a C++ `int` is an `Int`; the result of an `int` addition is stored through `wrap32`,
  and the functions named `Checked` treat a signed overflow as an error instead;
* a finite `double` is a rational number, and a `double` that is not finite (the result
  of a division by zero) is `none` in an `Option ℚ`;
* every function that computes with `double`s takes the rounding `fl` applied to the
  result of each arithmetic operation: `exactArith` is arithmetic without rounding, and
  `roundDouble` is the rounding of IEEE 754 binary64;
* the schedule chosen by the OpenMP runtime is an explicit argument `slices`: one list
  of loop indices per worker;
* an indexing `v[i]` is `v[i]?`, and a function returns `none` when an index is out of
  range.
-/

namespace LP5

/-! ## Machine integers -/

/-- The constant `numeric_limits<int>::max()`. -/
def INT_MAX : Int := 2147483647

/-- The constant `numeric_limits<int>::min()`. -/
def INT_MIN : Int := -2147483648

/-- The 32-bit two's complement value that an `int` holds after an arithmetic result
`v` is stored in it. -/
def wrap32 (v : Int) : Int := (v + 2147483648) % 4294967296 - 2147483648

/-- Every element of a `vector<int>` is a 32-bit `int`. -/
def isIntVector (data : List Int) : Prop := ∀ v ∈ data, INT_MIN ≤ v ∧ v ≤ INT_MAX

instance (data : List Int) : Decidable (isIntVector data) := by
  unfold isIntVector; infer_instance

/-! ## Arithmetic on `double` -/

/-- Arithmetic without rounding: the result of an operation is kept as it is. -/
def exactArith (q : ℚ) : ℚ := q

/-- The number of binary digits of `n`, found by halving at most `fuel` times. -/
def bitLength : Nat → Nat → Nat
  | 0, _ => 0
  | fuel + 1, n => if n = 0 then 0 else bitLength fuel (n / 2) + 1

/-- The power `2 ^ k` for an integer `k`. -/
def pow2 (k : Int) : ℚ := if 0 ≤ k then 2 ^ k.toNat else 1 / 2 ^ (-k).toNat

/-- The integer `k` with `2 ^ k ≤ q < 2 ^ (k + 1)`, for `q > 0`. -/
def floorLog2 (q : ℚ) : Int :=
  let k : Int := (bitLength q.num.natAbs q.num.natAbs : Int) - (bitLength q.den q.den : Int)
  if pow2 k ≤ q then k else k - 1

/-- The integer nearest to `q`, the even one of the two when `q` lies halfway. -/
def roundHalfEven (q : ℚ) : Int :=
  let f : Int := Rat.floor q
  let r : ℚ := q - f
  if r < 1 / 2 then f else if 1 / 2 < r then f + 1 else if f % 2 = 0 then f else f + 1

/-- Rounding to IEEE 754 binary64 in the default mode, round to nearest with ties to
even: a significand of 53 binary digits, and a unit in the last place no smaller than
`2 ^ (-1074)`. Results beyond the largest finite `double` are left finite. -/
def roundDouble (q : ℚ) : ℚ :=
  if q = 0 then 0
  else
    let e : Int := max (floorLog2 (if q < 0 then -q else q) - 52) (-1074)
    (roundHalfEven (q / pow2 e) : ℚ) * pow2 e

/-! ## The OpenMP reduction clause -/

/-- The loop `#pragma omp parallel for reduction(op : var)`. The runtime deals the
iterations out to the workers, `slices` holding the iterations of each worker. A worker
starts a private copy of `var` at the identity of `op` and runs the loop body over its
iterations; after the join every private copy is combined into the original `var`. -/
def ompReduce {β : Type} (body : β → Nat → Option β) (identity : β)
    (combine : β → β → β) (original : β) (slices : List (List Nat)) : Option β :=
  slices.foldlM (fun omp_out slice => (slice.foldlM body identity).map (combine omp_out))
    original

/-- The workers' slices hold every iteration `lo ≤ i < hi` of the loop exactly once. -/
def isPartition (lo hi : Nat) (slices : List (List Nat)) : Prop :=
  List.Perm slices.flatten (List.range' lo (hi - lo))

instance (lo hi : Nat) (slices : List (List Nat)) : Decidable (isPartition lo hi slices) := by
  unfold isPartition; infer_instance

/-! ## `minmax_parallel_red.cpp` -/

/-- Source function `sequentialMax`. -/
def sequentialMax (data : List Int) : Int :=
  match data with
  | [] => INT_MIN
  | d0 :: _ => data.foldl (fun max_val value => if value > max_val then value else max_val) d0

/-- Source function `sequentialMin`. -/
def sequentialMin (data : List Int) : Int :=
  match data with
  | [] => INT_MAX
  | d0 :: _ => data.foldl (fun min_val value => if value < min_val then value else min_val) d0

/-- Source function `sequentialSum`. -/
def sequentialSum (data : List Int) : Int :=
  data.foldl (fun sum value => wrap32 (sum + value)) 0

/-- Source function `sequentialAverage`. -/
def sequentialAverage (fl : ℚ → ℚ) (data : List Int) : ℚ :=
  if data.isEmpty then 0
  else fl ((sequentialSum data : ℚ) / (data.length : ℚ))

/-- Source function `parallelMin`: the loop runs over the indices `1 ≤ i < data.size()`
under `reduction(min : min_val)`. -/
def parallelMin (data : List Int) (slices : List (List Nat)) : Option Int :=
  match data with
  | [] => some INT_MAX
  | d0 :: _ =>
    ompReduce (fun min_val i => data[i]?.map (fun v => if v < min_val then v else min_val))
      INT_MAX (fun omp_out omp_in => if omp_in < omp_out then omp_in else omp_out) d0 slices

/-- Source function `parallelMax`: the loop runs over the indices `1 ≤ i < data.size()`
under `reduction(max : max_val)`. -/
def parallelMax (data : List Int) (slices : List (List Nat)) : Option Int :=
  match data with
  | [] => some INT_MIN
  | d0 :: _ =>
    ompReduce (fun max_val i => data[i]?.map (fun v => if v > max_val then v else max_val))
      INT_MIN (fun omp_out omp_in => if omp_in > omp_out then omp_in else omp_out) d0 slices

/-- Source function `parallelSum`: the loop runs over the indices `0 ≤ i < data.size()`
under `reduction(+ : sum)`. -/
def parallelSum (data : List Int) (slices : List (List Nat)) : Option Int :=
  ompReduce (fun sum i => data[i]?.map (fun v => wrap32 (sum + v)))
    0 (fun omp_out omp_in => wrap32 (omp_out + omp_in)) 0 slices

/-- Source function `parallelAverage`. -/
def parallelAverage (fl : ℚ → ℚ) (data : List Int) (slices : List (List Nat)) : Option ℚ :=
  if data.isEmpty then some 0
  else (parallelSum data slices).map (fun sum => fl ((sum : ℚ) / (data.length : ℚ)))

/-! ### Signed overflow as an error

C++ leaves the overflow of an `int` addition undefined. The functions above store the
wrapped result; the functions below stop with `none` instead, so that a result `some`
says that no addition overflowed. -/

/-- The addition of two `int`s that fails when the exact sum is not a 32-bit `int`. -/
def checkedAdd (a b : Int) : Option Int :=
  if INT_MIN ≤ a + b ∧ a + b ≤ INT_MAX then some (a + b) else none

/-- Source function `sequentialSum`, a signed overflow being an error. -/
def sequentialSumChecked (data : List Int) : Option Int :=
  data.foldlM (fun sum value => checkedAdd sum value) 0

/-- Source function `parallelSum`, a signed overflow being an error: the outer `none` is
an index out of range, the inner `none` an overflow in a worker or in the combination. -/
def parallelSumChecked (data : List Int) (slices : List (List Nat)) : Option (Option Int) :=
  ompReduce
    (fun sum i => data[i]?.map (fun v => sum.bind (fun acc => checkedAdd acc v)))
    (some 0)
    (fun omp_out omp_in => omp_out.bind (fun a => omp_in.bind (fun b => checkedAdd a b)))
    (some 0) slices

/-! ## `AIML.cpp` -/

/-- The four accumulators `sum_x`, `sum_y`, `sum_xy`, `sum_x2`. -/
structure LrSums where
  sum_x : ℚ
  sum_y : ℚ
  sum_xy : ℚ
  sum_x2 : ℚ
  deriving DecidableEq

/-- The output parameters `beta0`, `beta1` and `time`. A coefficient is `none` when the
`double` is not a finite number. -/
structure LrOutput where
  beta0 : Option ℚ
  beta1 : Option ℚ
  time : ℚ
  deriving DecidableEq

/-- The division of two `double`s: dividing by zero gives no finite number. -/
def fdiv (fl : ℚ → ℚ) (a b : ℚ) : Option ℚ := if b = 0 then none else some (fl (a / b))

/-- The initial value `0.0` of the four accumulators. -/
def lrZero : LrSums := ⟨0, 0, 0, 0⟩

/-- The reduction `+` on each of the four accumulators. -/
def lrAdd (fl : ℚ → ℚ) (omp_out omp_in : LrSums) : LrSums :=
  ⟨fl (omp_out.sum_x + omp_in.sum_x), fl (omp_out.sum_y + omp_in.sum_y),
   fl (omp_out.sum_xy + omp_in.sum_xy), fl (omp_out.sum_x2 + omp_in.sum_x2)⟩

/-- The body of the loop of `sequential_lr` and of `parallel_lr` at index `i`. -/
def lrBody (fl : ℚ → ℚ) (x y : List ℚ) (s : LrSums) (i : Nat) : Option LrSums :=
  match x[i]?, y[i]? with
  | some xi, some yi =>
    some ⟨fl (s.sum_x + xi), fl (s.sum_y + yi), fl (s.sum_xy + fl (xi * yi)),
      fl (s.sum_x2 + fl (xi * xi))⟩
  | _, _ => none

/-- The declaration `int n = x.size()`: the size of `x` stored in an `int`. -/
def lr_n (x : List ℚ) : Int := wrap32 x.length

/-- The dividend `n * sum_xy - sum_x * sum_y` of the slope. -/
def lrNumerator (fl : ℚ → ℚ) (n : Int) (s : LrSums) : ℚ :=
  fl (fl ((n : ℚ) * s.sum_xy) - fl (s.sum_x * s.sum_y))

/-- The divisor `n * sum_x2 - sum_x * sum_x` of the slope. -/
def lrDenominator (fl : ℚ → ℚ) (n : Int) (s : LrSums) : ℚ :=
  fl (fl ((n : ℚ) * s.sum_x2) - fl (s.sum_x * s.sum_x))

/-- The statements after the loop: the slope, the intercept and the elapsed time,
`t_start` and `t_end` being the two readings of `omp_get_wtime()`. -/
def lrFinish (fl : ℚ → ℚ) (n : Int) (s : LrSums) (t_start t_end : ℚ) : LrOutput :=
  let beta1 := fdiv fl (lrNumerator fl n s) (lrDenominator fl n s)
  let beta0 := beta1.bind (fun b1 => fdiv fl (fl (s.sum_y - fl (b1 * s.sum_x))) (n : ℚ))
  ⟨beta0, beta1, fl (t_end - t_start)⟩

/-- The four sums of `sequential_lr` after its loop `for (int i = 0; i < n; ++i)`. -/
def sequential_lr_sums (fl : ℚ → ℚ) (x y : List ℚ) : Option LrSums :=
  (List.range (lr_n x).toNat).foldlM (lrBody fl x y) lrZero

/-- Source function `sequential_lr`. -/
def sequential_lr (fl : ℚ → ℚ) (x y : List ℚ) (t_start t_end : ℚ) : Option LrOutput :=
  (sequential_lr_sums fl x y).map (fun s => lrFinish fl (lr_n x) s t_start t_end)

/-- The four sums of `parallel_lr` after its loop, which runs over the indices
`0 ≤ i < n` under `reduction(+ : sum_x, sum_y, sum_xy, sum_x2)`. -/
def parallel_lr_sums (fl : ℚ → ℚ) (x y : List ℚ) (slices : List (List Nat)) :
    Option LrSums :=
  ompReduce (lrBody fl x y) lrZero (lrAdd fl) lrZero slices

/-- Source function `parallel_lr`. -/
def parallel_lr (fl : ℚ → ℚ) (x y : List ℚ) (slices : List (List Nat))
    (t_start t_end : ℚ) : Option LrOutput :=
  (parallel_lr_sums fl x y slices).map (fun s => lrFinish fl (lr_n x) s t_start t_end)

/-! ## The inputs built by the two `main` functions -/

/-- The initialiser list of `data` in `main` of `minmax_parallel_red.cpp`, before the
random values are appended. -/
def main_data : List Int := [1, 4, 8, 6, 9, 5, 3, 11, 22, 33, 44, 55, 66]

/-- The vector `x` assigned in `main` of `AIML.cpp`. -/
def main_x : List ℚ := [1, 2, 3, 4, 5]

/-- The vector `y` assigned in `main` of `AIML.cpp`. -/
def main_y : List ℚ := [2, 4, 5, 4, 5]

/-- The `double` nearest to 0.3, the value of the literal `0.3`. -/
def double_0_3 : ℚ := 5404319552844595 / 18014398509481984

/-! ## Proof vocabulary -/

/-- The update of the four accumulators by one point `(xi, yi)`, without rounding. -/
def lrStep (s : LrSums) (p : ℚ × ℚ) : LrSums :=
  ⟨s.sum_x + p.1, s.sum_y + p.2, s.sum_xy + p.1 * p.2, s.sum_x2 + p.1 * p.1⟩

/-- The points `(x[i], y[i])` that the loops of the regression visit. -/
def lrPoints (x y : List ℚ) : List (ℚ × ℚ) := (x.zip y).take (lr_n x).toNat

/-- The four sums of a list of points, in closed form and without rounding. -/
def lrTotals (pts : List (ℚ × ℚ)) : LrSums :=
  ⟨(pts.map (fun p => p.1)).sum, (pts.map (fun p => p.2)).sum,
   (pts.map (fun p => p.1 * p.2)).sum, (pts.map (fun p => p.1 * p.1)).sum⟩

/-- The sum over `i` of the squared residuals `(ys[i] - a * xs[i] - b) ^ 2` of the line
`y = a * x + b`, which the fit `y = β1 x + β0` of `AIML.cpp` is meant to make least. -/
def sumSquaredResiduals (xs ys : List ℚ) (a b : ℚ) : ℚ :=
  ((xs.zip ys).map (fun p => (p.2 - a * p.1 - b) ^ 2)).sum

/-- The model rounds the decimals 0.1 and 0.3 to the `double`s that a C++ compiler
stores for the literals `0.1` and `0.3`, keeps numbers that are `double`s, and breaks
ties towards the even significand. -/
theorem roundDouble_known_values :
    roundDouble (1 / 10) = 3602879701896397 / 36028797018963968
      ∧ roundDouble (3 / 10) = double_0_3
      ∧ roundDouble double_0_3 = double_0_3
      ∧ roundDouble (-5 / 2) = -5 / 2
      ∧ roundDouble 9007199254740993 = 9007199254740992
      ∧ roundDouble 9007199254740995 = 9007199254740996
      ∧ roundDouble (double_0_3 + double_0_3 + double_0_3)
          = 2026619832316723 / 2251799813685248 := by
  decide!

/-- The operations of the regression on three points with `x = 0.3`, one rounding
after the other: the square 0.09, the sums 0.6 and 0.8999999999999999 of the
`x`-values, the sums 0.18 and 0.27 of the squares, the product `3 * 0.27 = 0.81`, the
square `0.8999999999999999 ^ 2 = 0.8099999999999998`, and their difference. -/
theorem roundDouble_degenerate_trace :
    roundDouble (double_0_3 * double_0_3) = 3242591731706757 / 36028797018963968
      ∧ roundDouble (0 + double_0_3) = double_0_3
      ∧ roundDouble (double_0_3 + double_0_3) = 5404319552844595 / 9007199254740992
      ∧ roundDouble (5404319552844595 / 9007199254740992 + double_0_3)
          = 2026619832316723 / 2251799813685248
      ∧ roundDouble (3242591731706757 / 36028797018963968
            + 3242591731706757 / 36028797018963968)
          = 3242591731706757 / 18014398509481984
      ∧ roundDouble (3242591731706757 / 18014398509481984
            + 3242591731706757 / 36028797018963968)
          = 607985949695017 / 2251799813685248
      ∧ roundDouble (3 * (607985949695017 / 2251799813685248))
          = 1823957849085051 / 2251799813685248
      ∧ roundDouble (2026619832316723 / 2251799813685248
            * (2026619832316723 / 2251799813685248))
          = 3647915698170101 / 4503599627370496
      ∧ roundDouble (1823957849085051 / 2251799813685248
            - 3647915698170101 / 4503599627370496)
          = 1 / 4503599627370496 := by
  decide!

/-! ## Index loops as folds over the values they read -/

section Generic

variable {α β : Type}

/-- A worker's scan of in-range indices reads the values at those indices and folds
them with the loop body's update. -/
theorem foldlM_getElem (l : List α) (step : β → α → β) :
    ∀ (slice : List Nat) (init : β), (∀ i ∈ slice, i < l.length) →
      slice.foldlM (fun acc i => l[i]?.map (step acc)) init
        = some ((slice.filterMap (fun i => l[i]?)).foldl step init) := by
  intro slice
  induction slice with
  | nil => intro init _; rfl
  | cons i rest ih =>
    intro init h
    have hi : i < l.length := h i (List.mem_cons_self _ _)
    have hrest : ∀ j ∈ rest, j < l.length := fun j hj => h j (List.mem_cons_of_mem _ hj)
    simp only [List.foldlM_cons, List.getElem?_eq_getElem hi, Option.map_some',
      Option.some_bind, Option.bind_eq_bind, List.filterMap_cons, List.foldl_cons]
    exact ih _ hrest

/-- The reduction over in-range slices: every private result is combined into the
original value, one worker after the other. -/
theorem ompReduce_getElem (l : List α) (step : β → α → β) (identity : β)
    (combine : β → β → β) :
    ∀ (slices : List (List Nat)) (original : β),
      (∀ s ∈ slices, ∀ i ∈ s, i < l.length) →
      ompReduce (fun acc i => l[i]?.map (step acc)) identity combine original slices
        = some (slices.foldl (fun omp_out s =>
            combine omp_out ((s.filterMap (fun i => l[i]?)).foldl step identity)) original) := by
  intro slices
  induction slices with
  | nil => intro original _; rfl
  | cons s rest ih =>
    intro original h
    have hs : ∀ i ∈ s, i < l.length := h s (List.mem_cons_self _ _)
    have hrest : ∀ t ∈ rest, ∀ i ∈ t, i < l.length :=
      fun t ht => h t (List.mem_cons_of_mem _ ht)
    have := ih (combine original ((s.filterMap (fun i => l[i]?)).foldl step identity)) hrest
    unfold ompReduce at this ⊢
    simp only [List.foldlM_cons, foldlM_getElem l step s identity hs, Option.map_some',
      Option.some_bind, Option.bind_eq_bind, List.foldl_cons]
    exact this

/-- Two-level fold: when combining a private result into a value `omp_out` amounts to
continuing the fold from `omp_out`, the combined result is the fold over all slices
laid end to end. The side condition `P` is an invariant of the running value. -/
theorem foldl_slices_flatten (f : Nat → Option α) (step : β → α → β) (identity : β)
    (combine : β → β → β) (P : β → Prop) (hstep : ∀ b a, P b → P (step b a))
    (hcomb : ∀ (omp_out : β) (vs : List α), P omp_out →
      combine omp_out (vs.foldl step identity) = vs.foldl step omp_out) :
    ∀ (slices : List (List Nat)) (original : β), P original →
      slices.foldl (fun omp_out s => combine omp_out ((s.filterMap f).foldl step identity))
          original
        = (slices.flatten.filterMap f).foldl step original := by
  have hP : ∀ (vs : List α) (b : β), P b → P (vs.foldl step b) := by
    intro vs
    induction vs with
    | nil => intro b hb; exact hb
    | cons v vs ih => intro b hb; exact ih _ (hstep b v hb)
  intro slices
  induction slices with
  | nil => intro original _; rfl
  | cons s rest ih =>
    intro original h0
    simp only [List.foldl_cons, List.flatten_cons, List.filterMap_append, List.foldl_append]
    rw [hcomb original _ h0]
    exact ih _ (hP _ _ h0)

/-- The values read at the indices `lo, lo+1, …, lo+k-1` of a list. -/
theorem filterMap_getElem_range (l : List α) :
    ∀ (k lo : Nat), (List.range' lo k).filterMap (fun i => l[i]?) = (l.drop lo).take k := by
  intro k
  induction k with
  | zero => intro lo; simp
  | succ k ih =>
    intro lo
    rw [List.range'_succ, List.filterMap_cons]
    by_cases h : lo < l.length
    · rw [List.getElem?_eq_getElem h, ih (lo + 1)]
      rw [List.drop_eq_getElem_cons h, List.take_succ_cons]
    · have h1 : l.length ≤ lo := Nat.le_of_not_lt h
      rw [List.getElem?_eq_none h1, ih (lo + 1)]
      rw [List.drop_eq_nil_of_le h1, List.drop_eq_nil_of_le (Nat.le_succ_of_le h1)]
      simp

/-- Indices of a partition of `lo ≤ i < hi` are below `hi`. -/
theorem isPartition_lt {lo hi : Nat} {slices : List (List Nat)}
    (h : isPartition lo hi slices) : ∀ s ∈ slices, ∀ i ∈ s, i < hi := by
  intro s hs i hi
  have hmem : i ∈ slices.flatten := List.mem_flatten.2 ⟨s, hs, hi⟩
  have := (List.Perm.mem_iff h).1 hmem
  rw [List.mem_range'_1] at this
  omega

/-- The values read over a partition of `lo ≤ i < hi` are, up to order, the elements
of the list at those positions. -/
theorem isPartition_values (l : List α) {lo hi : Nat} {slices : List (List Nat)}
    (h : isPartition lo hi slices) :
    List.Perm (slices.flatten.filterMap (fun i => l[i]?)) ((l.drop lo).take (hi - lo)) := by
  have := List.Perm.filterMap (fun i => l[i]?) h
  rwa [filterMap_getElem_range] at this

/-- A reduction loop over a partition of `lo ≤ i < hi` computes the sequential fold of
the loop body's update over the elements at positions `lo ≤ i < hi`, provided that the
update is insensitive to the order of the elements and that combining agrees with
continuing the fold. -/
theorem ompReduce_partition (l : List α) (step : β → α → β) (identity : β)
    (combine : β → β → β) (P : β → Prop) (hstep : ∀ b a, P b → P (step b a))
    (hcomb : ∀ (omp_out : β) (vs : List α), P omp_out →
      combine omp_out (vs.foldl step identity) = vs.foldl step omp_out)
    (hcomm : ∀ z x y, step (step z x) y = step (step z y) x)
    {lo hi : Nat} (slices : List (List Nat)) (original : β) (hhi : hi ≤ l.length)
    (hpart : isPartition lo hi slices) (h0 : P original) :
    ompReduce (fun acc i => l[i]?.map (step acc)) identity combine original slices
      = some (((l.drop lo).take (hi - lo)).foldl step original) := by
  have hlt : ∀ s ∈ slices, ∀ i ∈ s, i < l.length :=
    fun s hs i hi => Nat.lt_of_lt_of_le (isPartition_lt hpart s hs i hi) hhi
  rw [ompReduce_getElem l step identity combine slices original hlt]
  rw [foldl_slices_flatten (fun i => l[i]?) step identity combine P hstep hcomb slices
    original h0]
  rw [List.Perm.foldl_eq' (isPartition_values l hpart) (fun x _ y _ z => hcomm z x y)]

end Generic

/-! ## Sum -/

theorem wrap32_add_left (a b : Int) : wrap32 (wrap32 a + b) = wrap32 (a + b) := by
  unfold wrap32; omega

theorem wrap32_add_right (a b : Int) : wrap32 (a + wrap32 b) = wrap32 (a + b) := by
  unfold wrap32; omega

theorem wrap32_idem (a : Int) : wrap32 (wrap32 a) = wrap32 a := by
  unfold wrap32; omega

/-- A chain of wrapping additions from a 32-bit value is the wrapped exact sum. -/
theorem foldl_wrap32_add :
    ∀ (vs : List Int) (b : Int), wrap32 b = b →
      vs.foldl (fun sum value => wrap32 (sum + value)) b = wrap32 (b + vs.sum) := by
  intro vs
  induction vs with
  | nil => intro b hb; simpa using hb.symm
  | cons v vs ih =>
    intro b _
    rw [List.foldl_cons, ih _ (wrap32_idem _), wrap32_add_left, List.sum_cons, add_assoc]

/-- The sequential sum is the exact sum of the elements, wrapped to 32 bits. -/
theorem sequentialSum_eq_wrap32_sum (data : List Int) :
    sequentialSum data = wrap32 data.sum := by
  unfold sequentialSum
  rw [foldl_wrap32_add data 0 (by decide), zero_add]

/-- Under a schedule that runs each iteration once, `parallelSum` returns what
`sequentialSum` returns. -/
theorem parallelSum_eq (data : List Int) (slices : List (List Nat))
    (hpart : isPartition 0 data.length slices) :
    parallelSum data slices = some (sequentialSum data) := by
  unfold parallelSum sequentialSum
  rw [ompReduce_partition data (fun sum v => wrap32 (sum + v)) 0
    (fun omp_out omp_in => wrap32 (omp_out + omp_in)) (fun b => wrap32 b = b)
    (fun b a _ => wrap32_idem _) ?_ ?_ slices 0 (Nat.le_refl _) hpart (by decide)]
  · simp
  · intro omp_out vs h
    show wrap32 (omp_out + _) = _
    rw [foldl_wrap32_add vs 0 (by decide), foldl_wrap32_add vs omp_out h, zero_add,
      wrap32_add_right]
  · intro z x y
    show wrap32 (wrap32 (z + x) + y) = wrap32 (wrap32 (z + y) + x)
    rw [wrap32_add_left, wrap32_add_left]
    congr 1; omega

/-! ## Minimum and maximum -/

/-- Folding the minimum update from the smaller of `b` and `c` gives the smaller of `b`
and the fold from `c`. -/
theorem foldl_min_combine :
    ∀ (vs : List Int) (b c : Int),
      vs.foldl (fun min_val value => if value < min_val then value else min_val)
          (if c < b then c else b)
        = (if vs.foldl (fun min_val value => if value < min_val then value else min_val) c < b
            then vs.foldl (fun min_val value => if value < min_val then value else min_val) c
            else b) := by
  intro vs
  induction vs with
  | nil => intro b c; rfl
  | cons v vs ih =>
    intro b c
    simp only [List.foldl_cons]
    rw [← ih b (if v < c then v else c)]
    congr 1
    split_ifs <;> omega

/-- Folding the maximum update from the larger of `b` and `c` gives the larger of `b`
and the fold from `c`. -/
theorem foldl_max_combine :
    ∀ (vs : List Int) (b c : Int),
      vs.foldl (fun max_val value => if value > max_val then value else max_val)
          (if c > b then c else b)
        = (if vs.foldl (fun max_val value => if value > max_val then value else max_val) c > b
            then vs.foldl (fun max_val value => if value > max_val then value else max_val) c
            else b) := by
  intro vs
  induction vs with
  | nil => intro b c; rfl
  | cons v vs ih =>
    intro b c
    simp only [List.foldl_cons]
    rw [← ih b (if v > c then v else c)]
    congr 1
    split_ifs <;> omega

/-- On a non-empty vector the scan of `sequentialMin` may skip the first element. -/
theorem sequentialMin_cons (d0 : Int) (rest : List Int) :
    sequentialMin (d0 :: rest)
      = rest.foldl (fun min_val value => if value < min_val then value else min_val) d0 := by
  simp [sequentialMin]

/-- On a non-empty vector the scan of `sequentialMax` may skip the first element. -/
theorem sequentialMax_cons (d0 : Int) (rest : List Int) :
    sequentialMax (d0 :: rest)
      = rest.foldl (fun max_val value => if value > max_val then value else max_val) d0 := by
  simp [sequentialMax]

/-- Under a schedule that runs each iteration `1 ≤ i < data.size()` once, `parallelMin`
returns what `sequentialMin` returns. -/
theorem parallelMin_eq (data : List Int) (slices : List (List Nat))
    (hdata : isIntVector data) (hpart : isPartition 1 data.length slices) :
    parallelMin data slices = some (sequentialMin data) := by
  cases data with
  | nil => rfl
  | cons d0 rest =>
    have h0 : d0 ≤ INT_MAX := (hdata d0 (List.mem_cons_self _ _)).2
    rw [sequentialMin_cons]
    show ompReduce (fun min_val i => (d0 :: rest)[i]?.map
      (fun v => if v < min_val then v else min_val)) INT_MAX
      (fun omp_out omp_in => if omp_in < omp_out then omp_in else omp_out) d0 slices = _
    rw [ompReduce_partition (d0 :: rest)
      (fun min_val v => if v < min_val then v else min_val) INT_MAX
      (fun omp_out omp_in => if omp_in < omp_out then omp_in else omp_out)
      (fun b => b ≤ INT_MAX) ?_ ?_ ?_ slices d0 (Nat.le_refl _) hpart h0]
    · simp
    · intro b a hb
      show (if a < b then a else b) ≤ INT_MAX
      split_ifs <;> omega
    · intro omp_out vs h
      show (if _ < omp_out then _ else omp_out) = _
      rw [← foldl_min_combine vs omp_out INT_MAX]
      congr 1
      split_ifs <;> omega
    · intro z x y
      show (if y < (if x < z then x else z) then y else (if x < z then x else z))
        = (if x < (if y < z then y else z) then x else (if y < z then y else z))
      split_ifs <;> omega

/-- Under a schedule that runs each iteration `1 ≤ i < data.size()` once, `parallelMax`
returns what `sequentialMax` returns. -/
theorem parallelMax_eq (data : List Int) (slices : List (List Nat))
    (hdata : isIntVector data) (hpart : isPartition 1 data.length slices) :
    parallelMax data slices = some (sequentialMax data) := by
  cases data with
  | nil => rfl
  | cons d0 rest =>
    have h0 : INT_MIN ≤ d0 := (hdata d0 (List.mem_cons_self _ _)).1
    rw [sequentialMax_cons]
    show ompReduce (fun max_val i => (d0 :: rest)[i]?.map
      (fun v => if v > max_val then v else max_val)) INT_MIN
      (fun omp_out omp_in => if omp_in > omp_out then omp_in else omp_out) d0 slices = _
    rw [ompReduce_partition (d0 :: rest)
      (fun max_val v => if v > max_val then v else max_val) INT_MIN
      (fun omp_out omp_in => if omp_in > omp_out then omp_in else omp_out)
      (fun b => INT_MIN ≤ b) ?_ ?_ ?_ slices d0 (Nat.le_refl _) hpart h0]
    · simp
    · intro b a hb
      show INT_MIN ≤ (if a > b then a else b)
      split_ifs <;> omega
    · intro omp_out vs h
      show (if _ > omp_out then _ else omp_out) = _
      rw [← foldl_max_combine vs omp_out INT_MIN]
      congr 1
      split_ifs <;> omega
    · intro z x y
      show (if y > (if x > z then x else z) then y else (if x > z then x else z))
        = (if x > (if y > z then y else z) then x else (if y > z then y else z))
      split_ifs <;> omega

/-! ## Regression sums -/

theorem lrBody_eq (x y : List ℚ) (s : LrSums) (i : Nat) :
    lrBody exactArith x y s i = ((x.zip y)[i]?).map (lrStep s) := by
  unfold lrBody lrStep
  rw [List.zip_eq_zipWith, List.getElem?_zipWith]
  cases x[i]? <;> cases y[i]? <;> rfl

theorem lrBody_fun (x y : List ℚ) :
    lrBody exactArith x y = fun s i => ((x.zip y)[i]?).map (lrStep s) := by
  funext s i; exact lrBody_eq x y s i

/-- Folding the accumulator update over a list of points adds their four sums. -/
theorem foldl_lrStep :
    ∀ (pts : List (ℚ × ℚ)) (s : LrSums),
      pts.foldl lrStep s = lrAdd exactArith s (lrTotals pts) := by
  intro pts
  induction pts with
  | nil => intro s; simp [lrAdd, lrTotals, exactArith]
  | cons p pts ih =>
    intro s
    rw [List.foldl_cons, ih]
    simp only [lrAdd, lrTotals, lrStep, exactArith, List.map_cons, List.sum_cons,
      LrSums.mk.injEq]
    refine ⟨?_, ?_, ?_, ?_⟩ <;> ring

theorem lrAdd_lrZero (s : LrSums) : lrAdd exactArith lrZero s = s := by
  simp [lrAdd, lrZero, exactArith]

/-- The stored size `n` does not exceed the size of `x`. -/
theorem lr_n_toNat_le (x : List ℚ) : (lr_n x).toNat ≤ x.length := by
  unfold lr_n wrap32; omega

/-- A size that fits an `int` is stored unchanged. -/
theorem lr_n_eq (x : List ℚ) (h : (x.length : Int) ≤ INT_MAX) : lr_n x = x.length := by
  unfold INT_MAX at h; unfold lr_n wrap32; omega

/-- With `y` as long as `x`, the sequential loop stays in range and returns the four
sums of the visited points. -/
theorem sequential_lr_sums_eq (x y : List ℚ) (hlen : x.length = y.length) :
    sequential_lr_sums exactArith x y = some (lrTotals (lrPoints x y)) := by
  unfold sequential_lr_sums
  have hle : ∀ i ∈ List.range (lr_n x).toNat, i < (x.zip y).length := by
    intro i hi
    have := lr_n_toNat_le x
    rw [List.mem_range] at hi
    rw [List.length_zip]; omega
  rw [lrBody_fun, foldlM_getElem (x.zip y) lrStep _ lrZero hle, List.range_eq_range',
    filterMap_getElem_range, foldl_lrStep, lrAdd_lrZero]
  simp [lrPoints]

/-- With `y` as long as `x` and a schedule that runs each iteration once, the parallel
loop stays in range and returns the four sums of the visited points. -/
theorem parallel_lr_sums_eq (x y : List ℚ) (slices : List (List Nat))
    (hlen : x.length = y.length) (hpart : isPartition 0 (lr_n x).toNat slices) :
    parallel_lr_sums exactArith x y slices = some (lrTotals (lrPoints x y)) := by
  unfold parallel_lr_sums
  have hle : (lr_n x).toNat ≤ (x.zip y).length := by
    have := lr_n_toNat_le x
    rw [List.length_zip]; omega
  rw [lrBody_fun, ompReduce_partition (x.zip y) lrStep lrZero (lrAdd exactArith) (fun _ => True)
    (fun _ _ _ => trivial) ?_ ?_ slices lrZero hle hpart trivial]
  · rw [foldl_lrStep, lrAdd_lrZero]
    simp [lrPoints]
  · intro omp_out vs _
    rw [foldl_lrStep, foldl_lrStep, lrAdd_lrZero]
  · intro z p q
    simp only [lrStep, LrSums.mk.injEq]
    refine ⟨?_, ?_, ?_, ?_⟩ <;> ring

/-- With `y` as long as `x`, `sequential_lr` returns the coefficients computed from
the four sums of the visited points. -/
theorem sequential_lr_eq (x y : List ℚ) (t_start t_end : ℚ) (hlen : x.length = y.length) :
    sequential_lr exactArith x y t_start t_end
      = some (lrFinish exactArith (lr_n x) (lrTotals (lrPoints x y)) t_start t_end) := by
  unfold sequential_lr
  rw [sequential_lr_sums_eq x y hlen]; rfl

/-- With `y` as long as `x` and a schedule that runs each iteration once, `parallel_lr`
returns the coefficients computed from the four sums of the visited points. -/
theorem parallel_lr_eq (x y : List ℚ) (slices : List (List Nat)) (t_start t_end : ℚ)
    (hlen : x.length = y.length) (hpart : isPartition 0 (lr_n x).toNat slices) :
    parallel_lr exactArith x y slices t_start t_end
      = some (lrFinish exactArith (lr_n x) (lrTotals (lrPoints x y)) t_start t_end) := by
  unfold parallel_lr
  rw [parallel_lr_sums_eq x y slices hlen hpart]; rfl

/-- When the size of `x` fits an `int`, the loops visit every point. -/
theorem lrPoints_eq_zip (x y : List ℚ) (hsize : (x.length : Int) ≤ INT_MAX) :
    lrPoints x y = x.zip y := by
  unfold lrPoints
  rw [lr_n_eq x hsize]
  apply List.take_of_length_le
  rw [List.length_zip]
  simp

/-- The four sums of points that lie on the line `y = a * x + b`. -/
theorem lrTotals_line (a b : ℚ) :
    ∀ x : List ℚ, lrTotals (x.zip (x.map (fun v => a * v + b)))
      = ⟨x.sum, a * x.sum + x.length * b,
         a * (x.map (fun v => v * v)).sum + b * x.sum, (x.map (fun v => v * v)).sum⟩ := by
  intro x
  induction x with
  | nil => simp [lrTotals]
  | cons v x ih =>
    simp only [lrTotals, List.map_cons, List.zip_cons_cons, List.sum_cons, List.length_cons,
      LrSums.mk.injEq] at ih ⊢
    obtain ⟨h1, h2, h3, h4⟩ := ih
    rw [h1, h2, h3, h4]
    push_cast
    refine ⟨rfl, ?_, ?_, rfl⟩ <;> ring

/-- The sum of squared deviations from `m`, expanded. -/
theorem sum_sq_dev (m : ℚ) :
    ∀ x : List ℚ, (x.map (fun v => (v - m) * (v - m))).sum
      = (x.map (fun v => v * v)).sum - 2 * m * x.sum + x.length * (m * m) := by
  intro x
  induction x with
  | nil => simp
  | cons v x ih =>
    simp only [List.map_cons, List.sum_cons, List.length_cons]
    rw [ih]; push_cast; ring

/-- The sum of squared deviations from `m` is positive once some element differs
from `m`. -/
theorem sum_sq_dev_pos (m : ℚ) :
    ∀ x : List ℚ, (∃ v ∈ x, v ≠ m) → 0 < (x.map (fun v => (v - m) * (v - m))).sum := by
  intro x
  induction x with
  | nil => rintro ⟨v, hv, _⟩; cases hv
  | cons u x ih =>
    rintro ⟨v, hv, hne⟩
    simp only [List.map_cons, List.sum_cons]
    have hrest : 0 ≤ (x.map (fun v => (v - m) * (v - m))).sum := by
      apply List.sum_nonneg
      intro t ht
      obtain ⟨w, _, rfl⟩ := List.mem_map.1 ht
      exact mul_self_nonneg _
    by_cases hu : u = m
    · have hvx : v ∈ x := by
        rcases List.mem_cons.1 hv with h | h
        · exact absurd (h.trans hu) hne
        · exact h
      have := ih ⟨v, hvx, hne⟩
      have h0 : 0 ≤ (u - m) * (u - m) := mul_self_nonneg _
      linarith
    · have hpos : 0 < (u - m) * (u - m) := mul_self_pos.2 (sub_ne_zero.2 hu)
      linarith

/-- With two distinct `x`-values the divisor `n * Σx² - (Σx)²` is positive. -/
theorem lr_den_pos (x : List ℚ) (hdist : ∃ u ∈ x, ∃ v ∈ x, u ≠ v) :
    0 < (x.length : ℚ) * (x.map (fun v => v * v)).sum - x.sum * x.sum := by
  obtain ⟨u, hu, v, hv, huv⟩ := hdist
  have hlen : 0 < x.length := List.length_pos_of_mem hu
  have hn : (0 : ℚ) < x.length := by exact_mod_cast hlen
  have hex : ∃ w ∈ x, w ≠ x.sum / x.length := by
    by_cases h : u = x.sum / x.length
    · exact ⟨v, hv, fun hv2 => huv (h.trans hv2.symm)⟩
    · exact ⟨u, hu, h⟩
  have hpos := sum_sq_dev_pos (x.sum / x.length) x hex
  rw [sum_sq_dev] at hpos
  have key : (x.length : ℚ) * (x.map (fun v => v * v)).sum - x.sum * x.sum
      = x.length * ((x.map (fun v => v * v)).sum - 2 * (x.sum / x.length) * x.sum
          + x.length * (x.sum / x.length * (x.sum / x.length))) := by
    field_simp; ring
  rw [key]
  exact mul_pos hn hpos

/-- The four sums of points that share one `x`-value `c`. -/
theorem lrTotals_const (c : ℚ) :
    ∀ pts : List (ℚ × ℚ), (∀ p ∈ pts, p.1 = c) →
      (lrTotals pts).sum_x = pts.length * c ∧ (lrTotals pts).sum_x2 = pts.length * (c * c) := by
  intro pts
  induction pts with
  | nil => intro _; simp [lrTotals]
  | cons p pts ih =>
    intro h
    have hp : p.1 = c := h p (List.mem_cons_self _ _)
    obtain ⟨h1, h2⟩ := ih (fun q hq => h q (List.mem_cons_of_mem _ hq))
    simp only [lrTotals, List.map_cons, List.sum_cons, List.length_cons] at h1 h2 ⊢
    rw [h1, h2, hp]; push_cast
    constructor <;> ring

theorem fdiv_exact (a b : ℚ) :
    fdiv exactArith a b = if b = 0 then none else some (a / b) := rfl

theorem lrNumerator_exact (n : Int) (s : LrSums) :
    lrNumerator exactArith n s = (n : ℚ) * s.sum_xy - s.sum_x * s.sum_y := rfl

theorem lrDenominator_exact (n : Int) (s : LrSums) :
    lrDenominator exactArith n s = (n : ℚ) * s.sum_x2 - s.sum_x * s.sum_x := rfl

theorem lrFinish_exact (n : Int) (s : LrSums) (t_start t_end : ℚ) :
    lrFinish exactArith n s t_start t_end
      = ⟨(fdiv exactArith (lrNumerator exactArith n s) (lrDenominator exactArith n s)).bind
          (fun b1 => fdiv exactArith (s.sum_y - b1 * s.sum_x) (n : ℚ)),
         fdiv exactArith (lrNumerator exactArith n s) (lrDenominator exactArith n s),
         t_end - t_start⟩ := rfl

/-- With every `x`-value equal to `c`, the divisor of the slope is zero. -/
theorem lrDenominator_const (x y : List ℚ) (c : ℚ) (hlen : x.length = y.length)
    (hconst : ∀ v ∈ x, v = c) :
    lrDenominator exactArith (lr_n x) (lrTotals (lrPoints x y)) = 0 := by
  have hmem : ∀ p ∈ lrPoints x y, p.1 = c := by
    intro p hp
    have hz : p ∈ x.zip y := List.mem_of_mem_take hp
    obtain ⟨p1, p2⟩ := p
    exact hconst _ (List.of_mem_zip hz).1
  obtain ⟨h1, h2⟩ := lrTotals_const c (lrPoints x y) hmem
  have hcount : (lrPoints x y).length = (lr_n x).toNat := by
    have := lr_n_toNat_le x
    simp only [lrPoints, List.length_take, List.length_zip]
    omega
  rw [lrDenominator_exact, h1, h2, hcount]
  by_cases hneg : lr_n x < 0
  · have : (lr_n x).toNat = 0 := by omega
    rw [this]; simp
  · have hnat : ((lr_n x).toNat : Int) = lr_n x := Int.toNat_of_nonneg (by omega)
    have hcast : (((lr_n x).toNat : Int) : ℚ) = ((lr_n x : Int) : ℚ) := by rw [hnat]
    rw [Int.cast_natCast] at hcast
    rw [hcast]; ring

/-! ## Extremes are elements and bounds -/

/-- The running minimum never exceeds its starting value nor any scanned element, and
it is the starting value or a scanned element. -/
theorem foldl_min_spec :
    ∀ (l : List Int) (b : Int),
      l.foldl (fun min_val value => if value < min_val then value else min_val) b ≤ b
        ∧ (∀ v ∈ l,
            l.foldl (fun min_val value => if value < min_val then value else min_val) b ≤ v)
        ∧ (l.foldl (fun min_val value => if value < min_val then value else min_val) b = b
            ∨ l.foldl (fun min_val value => if value < min_val then value else min_val) b
                ∈ l) := by
  intro l
  induction l with
  | nil => intro b; simp
  | cons u l ih =>
    intro b
    obtain ⟨h1, h2, h3⟩ := ih (if u < b then u else b)
    simp only [List.foldl_cons]
    refine ⟨?_, ?_, ?_⟩
    · split_ifs at h1 ⊢ <;> omega
    · intro v hv
      rcases List.mem_cons.1 hv with hvu | hvl
      · subst hvu
        split_ifs at h1 ⊢ <;> omega
      · exact h2 v hvl
    · rcases h3 with h | h
      · by_cases hub : u < b
        · right; rw [h, if_pos hub]; exact List.mem_cons_self _ _
        · left; rw [h, if_neg hub]
      · right; exact List.mem_cons_of_mem _ h

/-- The running maximum is never below its starting value nor any scanned element, and
it is the starting value or a scanned element. -/
theorem foldl_max_spec :
    ∀ (l : List Int) (b : Int),
      b ≤ l.foldl (fun max_val value => if value > max_val then value else max_val) b
        ∧ (∀ v ∈ l,
            v ≤ l.foldl (fun max_val value => if value > max_val then value else max_val) b)
        ∧ (l.foldl (fun max_val value => if value > max_val then value else max_val) b = b
            ∨ l.foldl (fun max_val value => if value > max_val then value else max_val) b
                ∈ l) := by
  intro l
  induction l with
  | nil => intro b; simp
  | cons u l ih =>
    intro b
    obtain ⟨h1, h2, h3⟩ := ih (if u > b then u else b)
    simp only [List.foldl_cons]
    refine ⟨?_, ?_, ?_⟩
    · split_ifs at h1 ⊢ <;> omega
    · intro v hv
      rcases List.mem_cons.1 hv with hvu | hvl
      · subst hvu
        split_ifs at h1 ⊢ <;> omega
      · exact h2 v hvl
    · rcases h3 with h | h
      · by_cases hub : u > b
        · right; rw [h, if_pos hub]; exact List.mem_cons_self _ _
        · left; rw [h, if_neg hub]
      · right; exact List.mem_cons_of_mem _ h

/-- On a non-empty series `sequentialMin` returns one of the elements. -/
theorem sequentialMin_mem (S : List Int) (hne : S ≠ []) : sequentialMin S ∈ S := by
  cases S with
  | nil => exact absurd rfl hne
  | cons d0 rest =>
    rw [sequentialMin_cons]
    rcases (foldl_min_spec rest d0).2.2 with h | h
    · rw [h]; exact List.mem_cons_self _ _
    · exact List.mem_cons_of_mem _ h

/-- The value of `sequentialMin` is a lower bound of the elements. -/
theorem sequentialMin_le (S : List Int) : ∀ v ∈ S, sequentialMin S ≤ v := by
  cases S with
  | nil => intro v hv; cases hv
  | cons d0 rest =>
    intro v hv
    rw [sequentialMin_cons]
    rcases List.mem_cons.1 hv with h | h
    · rw [h]; exact (foldl_min_spec rest d0).1
    · exact (foldl_min_spec rest d0).2.1 v h

/-- On a non-empty series `sequentialMax` returns one of the elements. -/
theorem sequentialMax_mem (S : List Int) (hne : S ≠ []) : sequentialMax S ∈ S := by
  cases S with
  | nil => exact absurd rfl hne
  | cons d0 rest =>
    rw [sequentialMax_cons]
    rcases (foldl_max_spec rest d0).2.2 with h | h
    · rw [h]; exact List.mem_cons_self _ _
    · exact List.mem_cons_of_mem _ h

/-- The value of `sequentialMax` is an upper bound of the elements. -/
theorem le_sequentialMax (S : List Int) : ∀ v ∈ S, v ≤ sequentialMax S := by
  cases S with
  | nil => intro v hv; cases hv
  | cons d0 rest =>
    intro v hv
    rw [sequentialMax_cons]
    rcases List.mem_cons.1 hv with h | h
    · rw [h]; exact (foldl_max_spec rest d0).1
    · exact (foldl_max_spec rest d0).2.1 v h

/-- The value of `sequentialMin` does not depend on the order of the elements. -/
theorem sequentialMin_perm {S T : List Int} (h : List.Perm S T) :
    sequentialMin S = sequentialMin T := by
  by_cases hS : S = []
  · subst hS
    rw [List.Perm.nil_eq h]
  · have hT : T ≠ [] := fun hT => hS (List.Perm.eq_nil (hT ▸ h))
    have h1 := sequentialMin_le S _ ((List.Perm.mem_iff h).2 (sequentialMin_mem T hT))
    have h2 := sequentialMin_le T _ ((List.Perm.mem_iff h).1 (sequentialMin_mem S hS))
    omega

/-- The value of `sequentialMax` does not depend on the order of the elements. -/
theorem sequentialMax_perm {S T : List Int} (h : List.Perm S T) :
    sequentialMax S = sequentialMax T := by
  by_cases hS : S = []
  · subst hS
    rw [List.Perm.nil_eq h]
  · have hT : T ≠ [] := fun hT => hS (List.Perm.eq_nil (hT ▸ h))
    have h1 := le_sequentialMax S _ ((List.Perm.mem_iff h).2 (sequentialMax_mem T hT))
    have h2 := le_sequentialMax T _ ((List.Perm.mem_iff h).1 (sequentialMax_mem S hS))
    omega

/-- The value of `sequentialSum` does not depend on the order of the elements. -/
theorem sequentialSum_perm {S T : List Int} (h : List.Perm S T) :
    sequentialSum S = sequentialSum T := by
  rw [sequentialSum_eq_wrap32_sum, sequentialSum_eq_wrap32_sum, List.Perm.sum_eq h]

/-! ## Sums that stay within the 32-bit range -/

/-- A value within the 32-bit range is stored unchanged. -/
theorem wrap32_of_range (v : Int) (h : INT_MIN ≤ v ∧ v ≤ INT_MAX) : wrap32 v = v := by
  unfold INT_MIN INT_MAX at h; unfold wrap32; omega

/-- The stored sum differs from the exact sum by a multiple of `2 ^ 32`. -/
theorem wrap32_sub_emod (v : Int) : (wrap32 v - v) % 4294967296 = 0 := by
  unfold wrap32; omega

/-- When every partial sum `b + (first k elements)` is a 32-bit `int`, the checked
left-to-right accumulation from `b` succeeds and returns the exact sum. -/
theorem foldlM_checkedAdd :
    ∀ (l : List Int) (b : Int),
      (∀ k, k ≤ l.length → INT_MIN ≤ b + (l.take k).sum ∧ b + (l.take k).sum ≤ INT_MAX) →
      l.foldlM (fun sum value => checkedAdd sum value) b = some (b + l.sum) := by
  intro l
  induction l with
  | nil => intro b _; simp
  | cons v l ih =>
    intro b h
    have h1 := h 1 (by simp)
    simp only [List.take_succ_cons, List.take_zero, List.sum_cons, List.sum_nil,
      add_zero] at h1
    have hstep : checkedAdd b v = some (b + v) := by
      unfold checkedAdd; rw [if_pos h1]
    have hrest : ∀ k, k ≤ l.length →
        INT_MIN ≤ (b + v) + (l.take k).sum ∧ (b + v) + (l.take k).sum ≤ INT_MAX := by
      intro k hk
      have := h (k + 1) (by simp; omega)
      simp only [List.take_succ_cons, List.sum_cons] at this
      omega
    simp only [List.foldlM_cons, hstep, Option.some_bind, Option.bind_eq_bind, List.sum_cons]
    rw [ih (b + v) hrest, add_assoc]

/-- When every left-to-right partial sum is a 32-bit `int`, no addition of
`sequentialSum` overflows. -/
theorem sequentialSumChecked_eq (S : List Int)
    (hsums : ∀ k, k ≤ S.length → INT_MIN ≤ (S.take k).sum ∧ (S.take k).sum ≤ INT_MAX) :
    sequentialSumChecked S = some S.sum := by
  unfold sequentialSumChecked
  rw [foldlM_checkedAdd S 0 (by simpa using hsums), zero_add]

/-- When the exact sum is a 32-bit `int`, `sequentialSum` returns it. -/
theorem sequentialSum_eq_sum (S : List Int) (h : INT_MIN ≤ S.sum ∧ S.sum ≤ INT_MAX) :
    sequentialSum S = S.sum := by
  rw [sequentialSum_eq_wrap32_sum, wrap32_of_range _ h]

/-- The average without rounding, in terms of the value of `sequentialSum`. -/
theorem sequentialAverage_exact (S : List Int) :
    sequentialAverage exactArith S
      = if S.isEmpty then 0 else (sequentialSum S : ℚ) / (S.length : ℚ) := rfl

/-! ## The average lies between the extremes -/

/-- A lower bound of the elements, taken once per element, bounds the sum from below. -/
theorem length_mul_le_sum :
    ∀ (l : List Int) (m : Int), (∀ v ∈ l, m ≤ v) → (l.length : Int) * m ≤ l.sum := by
  intro l
  induction l with
  | nil => intro m _; simp
  | cons u l ih =>
    intro m h
    have hu := h u (List.mem_cons_self _ _)
    have hl := ih m (fun v hv => h v (List.mem_cons_of_mem _ hv))
    simp only [List.length_cons, List.sum_cons]
    push_cast
    nlinarith

/-- An upper bound of the elements, taken once per element, bounds the sum from above. -/
theorem sum_le_length_mul :
    ∀ (l : List Int) (m : Int), (∀ v ∈ l, v ≤ m) → l.sum ≤ (l.length : Int) * m := by
  intro l
  induction l with
  | nil => intro m _; simp
  | cons u l ih =>
    intro m h
    have hu := h u (List.mem_cons_self _ _)
    have hl := ih m (fun v hv => h v (List.mem_cons_of_mem _ hv))
    simp only [List.length_cons, List.sum_cons]
    push_cast
    nlinarith

/-- The exact mean of a non-empty series lies between `sequentialMin` and
`sequentialMax`. -/
theorem mean_between (S : List Int) (hne : S ≠ []) :
    (sequentialMin S : ℚ) ≤ (S.sum : ℚ) / (S.length : ℚ)
      ∧ (S.sum : ℚ) / (S.length : ℚ) ≤ (sequentialMax S : ℚ) := by
  have hpos : 0 < S.length := List.length_pos.2 hne
  have hn : (0 : ℚ) < (S.length : ℚ) := by exact_mod_cast hpos
  have h1 := length_mul_le_sum S (sequentialMin S) (sequentialMin_le S)
  have h2 := sum_le_length_mul S (sequentialMax S) (le_sequentialMax S)
  have h1q : ((S.length : Int) : ℚ) * (sequentialMin S : ℚ) ≤ (S.sum : ℚ) := by
    exact_mod_cast h1
  have h2q : (S.sum : ℚ) ≤ ((S.length : Int) : ℚ) * (sequentialMax S : ℚ) := by
    exact_mod_cast h2
  rw [Int.cast_natCast] at h1q h2q
  constructor
  · rw [le_div_iff₀ hn]; linarith
  · rw [div_le_iff₀ hn]; linarith

/-! ## The index accesses of the regression -/

/-- At an index within both vectors the loop body finds `x[i]` and `y[i]`. -/
theorem lrBody_in_range (fl : ℚ → ℚ) (x y : List ℚ) (s : LrSums) (i : Nat)
    (hx : i < x.length) (hy : i < y.length) : ∃ r, lrBody fl x y s i = some r := by
  unfold lrBody
  rw [List.getElem?_eq_getElem hx, List.getElem?_eq_getElem hy]
  exact ⟨_, rfl⟩

/-- At an index beyond the end of `y` the loop body reads out of range. -/
theorem lrBody_out_of_range (fl : ℚ → ℚ) (x y : List ℚ) (s : LrSums) (i : Nat)
    (hy : y.length ≤ i) : lrBody fl x y s i = none := by
  unfold lrBody
  rw [List.getElem?_eq_none hy]
  cases x[i]? <;> rfl

/-- A scan over indices that are all within both vectors never reads out of range. -/
theorem foldlM_lrBody_in_range (fl : ℚ → ℚ) (x y : List ℚ) :
    ∀ (idxs : List Nat) (s : LrSums), (∀ i ∈ idxs, i < x.length ∧ i < y.length) →
      ∃ r, idxs.foldlM (lrBody fl x y) s = some r := by
  intro idxs
  induction idxs with
  | nil => intro s _; exact ⟨s, rfl⟩
  | cons i rest ih =>
    intro s h
    obtain ⟨hx, hy⟩ := h i (List.mem_cons_self _ _)
    obtain ⟨r, hr⟩ := lrBody_in_range fl x y s i hx hy
    obtain ⟨r2, hr2⟩ := ih r (fun j hj => h j (List.mem_cons_of_mem _ hj))
    refine ⟨r2, ?_⟩
    simp only [List.foldlM_cons, hr, Option.some_bind, Option.bind_eq_bind]
    exact hr2

/-- A scan that reaches an index beyond the end of `y` reads out of range. -/
theorem foldlM_lrBody_out_of_range (fl : ℚ → ℚ) (x y : List ℚ) :
    ∀ (idxs : List Nat) (s : LrSums), (∃ i ∈ idxs, y.length ≤ i) →
      idxs.foldlM (lrBody fl x y) s = none := by
  intro idxs
  induction idxs with
  | nil => rintro s ⟨i, hi, _⟩; cases hi
  | cons j rest ih =>
    rintro s ⟨i, hi, hlen⟩
    simp only [List.foldlM_cons, Option.bind_eq_bind]
    cases hj : lrBody fl x y s j with
    | none => rfl
    | some r =>
      simp only [Option.some_bind]
      rcases List.mem_cons.1 hi with h | h
      · rw [h] at hlen
        rw [lrBody_out_of_range fl x y s j hlen] at hj
        cases hj
      · exact ih r ⟨i, h, hlen⟩

/-- A reduction whose workers never read out of range returns a result. -/
theorem ompReduce_in_range {β : Type} (body : β → Nat → Option β) (identity : β)
    (combine : β → β → β) :
    ∀ (slices : List (List Nat)) (original : β),
      (∀ s ∈ slices, ∃ r, s.foldlM body identity = some r) →
      ∃ r, ompReduce body identity combine original slices = some r := by
  intro slices
  induction slices with
  | nil => intro original _; exact ⟨original, rfl⟩
  | cons s rest ih =>
    intro original h
    obtain ⟨r, hr⟩ := h s (List.mem_cons_self _ _)
    obtain ⟨r2, hr2⟩ := ih (combine original r) (fun t ht => h t (List.mem_cons_of_mem _ ht))
    refine ⟨r2, ?_⟩
    unfold ompReduce at hr2 ⊢
    simp only [List.foldlM_cons, hr, Option.map_some', Option.some_bind, Option.bind_eq_bind]
    exact hr2

/-- When `y` is shorter than the loop bound taken from `x`, `sequential_lr` reads `y`
out of range. -/
theorem sequential_lr_short_y (fl : ℚ → ℚ) (x y : List ℚ) (t_start t_end : ℚ)
    (hshort : y.length < (lr_n x).toNat) : sequential_lr fl x y t_start t_end = none := by
  unfold sequential_lr sequential_lr_sums
  rw [foldlM_lrBody_out_of_range fl x y _ lrZero
    ⟨y.length, List.mem_range.2 hshort, Nat.le_refl _⟩]
  rfl

/-! ## The closed form of the regression and the least squares -/

/-- The four sums of the points of two vectors of equal length, as sums over the
vectors. -/
theorem lrTotals_zip :
    ∀ (xs ys : List ℚ), xs.length = ys.length →
      lrTotals (xs.zip ys)
        = ⟨xs.sum, ys.sum, (List.zipWith (fun u v => u * v) xs ys).sum,
            (xs.map (fun v => v * v)).sum⟩ := by
  intro xs
  induction xs with
  | nil =>
    intro ys h
    have : ys = [] := List.length_eq_zero.1 h.symm
    subst this
    simp [lrTotals]
  | cons u xs ih =>
    intro ys h
    cases ys with
    | nil => simp at h
    | cons v ys =>
      have h2 : xs.length = ys.length := by simpa using h
      have := ih ys h2
      simp only [lrTotals, LrSums.mk.injEq, List.zip_cons_cons, List.map_cons, List.sum_cons,
        List.zipWith_cons_cons] at this ⊢
      obtain ⟨h1, h2, h3, h4⟩ := this
      rw [h1, h2, h3, h4]
      exact ⟨rfl, rfl, rfl, rfl⟩

/-- The number of points of two vectors of equal length. -/
theorem length_zip_of_eq (xs ys : List ℚ) (hlen : xs.length = ys.length) :
    (xs.zip ys).length = xs.length := by
  rw [List.length_zip, ← hlen, Nat.min_self]

/-- The sum of squared residuals of a line, expanded in the sums of the points. -/
theorem sum_sq_residuals_expand (a b : ℚ) :
    ∀ pts : List (ℚ × ℚ),
      (pts.map (fun p => (p.2 - a * p.1 - b) ^ 2)).sum
        = (pts.map (fun p => p.2 * p.2)).sum - 2 * a * (lrTotals pts).sum_xy
            - 2 * b * (lrTotals pts).sum_y + a * a * (lrTotals pts).sum_x2
            + 2 * a * b * (lrTotals pts).sum_x + pts.length * (b * b) := by
  intro pts
  induction pts with
  | nil => simp [lrTotals]
  | cons p pts ih =>
    simp only [lrTotals, List.map_cons, List.sum_cons, List.length_cons] at ih ⊢
    rw [ih]; push_cast; ring

/-- The quadratic form of the sums of the points is a sum of squares. -/
theorem quadratic_form_nonneg (u v : ℚ) :
    ∀ pts : List (ℚ × ℚ),
      0 ≤ u * u * (lrTotals pts).sum_x2 + 2 * u * v * (lrTotals pts).sum_x
            + pts.length * (v * v) := by
  intro pts
  have hsq : (pts.map (fun p => (u * p.1 + v) ^ 2)).sum
      = u * u * (lrTotals pts).sum_x2 + 2 * u * v * (lrTotals pts).sum_x
          + pts.length * (v * v) := by
    induction pts with
    | nil => simp [lrTotals]
    | cons p pts ih =>
      simp only [lrTotals, List.map_cons, List.sum_cons, List.length_cons] at ih ⊢
      rw [ih]; push_cast; ring
  rw [← hsq]
  apply List.sum_nonneg
  intro t ht
  obtain ⟨p, _, rfl⟩ := List.mem_map.1 ht
  exact sq_nonneg _

/-- Least squares: coefficients that satisfy the two normal equations of a list of
points make the sum of squared residuals least. -/
theorem normal_equations_minimise (pts : List (ℚ × ℚ)) (beta0 beta1 : ℚ)
    (h1 : beta1 * (lrTotals pts).sum_x2 + beta0 * (lrTotals pts).sum_x
      = (lrTotals pts).sum_xy)
    (h2 : beta1 * (lrTotals pts).sum_x + pts.length * beta0 = (lrTotals pts).sum_y)
    (a b : ℚ) :
    (pts.map (fun p => (p.2 - beta1 * p.1 - beta0) ^ 2)).sum
      ≤ (pts.map (fun p => (p.2 - a * p.1 - b) ^ 2)).sum := by
  have hq := quadratic_form_nonneg (a - beta1) (b - beta0) pts
  rw [sum_sq_residuals_expand, sum_sq_residuals_expand]
  have key : (pts.map (fun p => p.2 * p.2)).sum - 2 * a * (lrTotals pts).sum_xy
        - 2 * b * (lrTotals pts).sum_y + a * a * (lrTotals pts).sum_x2
        + 2 * a * b * (lrTotals pts).sum_x + pts.length * (b * b)
      - ((pts.map (fun p => p.2 * p.2)).sum - 2 * beta1 * (lrTotals pts).sum_xy
        - 2 * beta0 * (lrTotals pts).sum_y + beta1 * beta1 * (lrTotals pts).sum_x2
        + 2 * beta1 * beta0 * (lrTotals pts).sum_x + pts.length * (beta0 * beta0))
      = (a - beta1) * (a - beta1) * (lrTotals pts).sum_x2
          + 2 * (a - beta1) * (b - beta0) * (lrTotals pts).sum_x
          + pts.length * ((b - beta0) * (b - beta0)) := by
    linear_combination (2 * (a - beta1)) * h1 + (2 * (b - beta0)) * h2
  linarith

/-- The coefficients that the closing statements of the regression compute from the
sums of `n` points, with a non-zero divisor and `n ≠ 0`, satisfy the two normal
equations. -/
theorem closed_form_normal_equations (n sx sy sxy sx2 : ℚ) (hn : n ≠ 0)
    (hd : n * sx2 - sx * sx ≠ 0) :
    (n * sxy - sx * sy) / (n * sx2 - sx * sx) * sx2
        + (sy - (n * sxy - sx * sy) / (n * sx2 - sx * sx) * sx) / n * sx = sxy
      ∧ (n * sxy - sx * sy) / (n * sx2 - sx * sx) * sx
        + n * ((sy - (n * sxy - sx * sy) / (n * sx2 - sx * sx) * sx) / n) = sy := by
  constructor
  · field_simp
    ring
  · field_simp
    ring

/-! ## Sums of non-negative values -/

/-- A list of non-negative integers has a non-negative sum. -/
theorem sum_nonneg_of_nonneg : ∀ l : List Int, (∀ v ∈ l, 0 ≤ v) → 0 ≤ l.sum := by
  intro l
  induction l with
  | nil => intro _; simp
  | cons u l ih =>
    intro h
    have hu := h u (List.mem_cons_self _ _)
    have hl := ih (fun v hv => h v (List.mem_cons_of_mem _ hv))
    simp only [List.sum_cons]
    omega

/-- The partial sums of a list of non-negative integers lie between 0 and the full
sum. -/
theorem take_sum_bounds (l : List Int) (h : ∀ v ∈ l, 0 ≤ v) (k : Nat) :
    0 ≤ (l.take k).sum ∧ (l.take k).sum ≤ l.sum := by
  have h1 : 0 ≤ (l.take k).sum :=
    sum_nonneg_of_nonneg _ (fun v hv => h v (List.mem_of_mem_take hv))
  have h2 : 0 ≤ (l.drop k).sum :=
    sum_nonneg_of_nonneg _ (fun v hv => h v (List.mem_of_mem_drop hv))
  have h3 : (l.take k).sum + (l.drop k).sum = l.sum := by
    rw [← List.sum_append, List.take_append_drop]
  omega

/-- A worker of the checked sum that adds non-negative values, none of its partial sums
leaving the 32-bit range, returns the exact sum. -/
theorem foldl_checked_worker :
    ∀ (vs : List Int) (b : Int), (∀ v ∈ vs, 0 ≤ v) → 0 ≤ b → b + vs.sum ≤ INT_MAX →
      vs.foldl (fun (sum : Option Int) v => sum.bind (fun acc => checkedAdd acc v)) (some b)
        = some (b + vs.sum) := by
  intro vs
  induction vs with
  | nil => intro b _ _ _; simp
  | cons u vs ih =>
    intro b h hb hmax
    have hu := h u (List.mem_cons_self _ _)
    have hrest : ∀ v ∈ vs, 0 ≤ v := fun v hv => h v (List.mem_cons_of_mem _ hv)
    have hs := sum_nonneg_of_nonneg vs hrest
    simp only [List.sum_cons] at hmax
    have hstep : checkedAdd b u = some (b + u) := by
      unfold checkedAdd
      rw [if_pos]
      simp only [INT_MIN, INT_MAX] at hmax ⊢
      omega
    simp only [List.foldl_cons, Option.some_bind, hstep, List.sum_cons]
    rw [ih (b + u) hrest (by omega) (by omega), add_assoc]

/-- The combination of the workers of the checked sum, all values non-negative and the
total within the 32-bit range, returns the exact total. -/
theorem foldl_checked_combine (f : Nat → Option Int) :
    ∀ (slices : List (List Nat)) (acc : Int),
      (∀ s ∈ slices, ∀ v ∈ s.filterMap f, 0 ≤ v) → 0 ≤ acc →
      acc + (slices.flatten.filterMap f).sum ≤ INT_MAX →
      slices.foldl (fun (omp_out : Option Int) s =>
          omp_out.bind (fun a =>
            ((s.filterMap f).foldl
              (fun (sum : Option Int) v => sum.bind (fun acc => checkedAdd acc v))
              (some 0)).bind (fun b => checkedAdd a b))) (some acc)
        = some (acc + (slices.flatten.filterMap f).sum) := by
  intro slices
  induction slices with
  | nil => intro acc _ _ _; simp
  | cons s rest ih =>
    intro acc h hacc hmax
    have hs : ∀ v ∈ s.filterMap f, 0 ≤ v := h s (List.mem_cons_self _ _)
    have hrest : ∀ t ∈ rest, ∀ v ∈ t.filterMap f, 0 ≤ v :=
      fun t ht => h t (List.mem_cons_of_mem _ ht)
    have hs0 := sum_nonneg_of_nonneg _ hs
    have hr0 : 0 ≤ (rest.flatten.filterMap f).sum := by
      apply sum_nonneg_of_nonneg
      intro v hv
      obtain ⟨i, hi, hfi⟩ := List.mem_filterMap.1 hv
      obtain ⟨t, ht, hit⟩ := List.mem_flatten.1 hi
      exact hrest t ht v (List.mem_filterMap.2 ⟨i, hit, hfi⟩)
    simp only [List.flatten_cons, List.filterMap_append, List.sum_append] at hmax
    have hworker := foldl_checked_worker (s.filterMap f) 0 hs (Int.le_refl 0) (by omega)
    have hstep : checkedAdd acc (0 + (s.filterMap f).sum)
        = some (acc + (s.filterMap f).sum) := by
      unfold checkedAdd
      rw [if_pos, zero_add]
      simp only [INT_MIN, INT_MAX, zero_add] at hmax ⊢
      omega
    simp only [List.foldl_cons, Option.some_bind, hworker, hstep, List.flatten_cons,
      List.filterMap_append, List.sum_append]
    rw [ih (acc + (s.filterMap f).sum) hrest (by omega) (by omega), add_assoc]

/-- On non-negative data whose total is a 32-bit `int`, under a schedule that runs each
iteration once, no addition of `parallelSum` overflows, in the workers or in the
combination, and the exact sum is returned. -/
theorem parallelSumChecked_eq (data : List Int) (slices : List (List Nat))
    (hnonneg : ∀ v ∈ data, 0 ≤ v) (hmax : data.sum ≤ INT_MAX)
    (hpart : isPartition 0 data.length slices) :
    parallelSumChecked data slices = some (some data.sum) := by
  have hlt : ∀ s ∈ slices, ∀ i ∈ s, i < data.length := isPartition_lt hpart
  have hvals : (slices.flatten.filterMap (fun i => data[i]?)).sum = data.sum := by
    have := List.Perm.sum_eq (isPartition_values data hpart)
    simpa using this
  have hmem : ∀ s ∈ slices, ∀ v ∈ s.filterMap (fun i => data[i]?), 0 ≤ v := by
    intro s _ v hv
    obtain ⟨i, _, hi⟩ := List.mem_filterMap.1 hv
    exact hnonneg v (List.getElem?_mem hi)
  unfold parallelSumChecked
  rw [ompReduce_getElem data
    (fun (sum : Option Int) v => sum.bind (fun acc => checkedAdd acc v)) (some 0)
    (fun omp_out omp_in => omp_out.bind (fun a => omp_in.bind (fun b => checkedAdd a b)))
    slices (some 0) hlt]
  rw [foldl_checked_combine (fun i => data[i]?) slices 0 hmem (Int.le_refl 0)
    (by rw [hvals]; omega), hvals, zero_add]

/-! ## Rounding to binary64 keeps integer bounds -/

/-- The number of binary digits: `n < 2 ^ bitLength` and, for `n ≥ 1`,
`2 ^ (bitLength - 1) ≤ n`, when the fuel is at least `n`. -/
theorem bitLength_spec :
    ∀ (fuel n : Nat), n ≤ fuel →
      n < 2 ^ bitLength fuel n ∧ (1 ≤ n → 2 ^ (bitLength fuel n - 1) ≤ n) := by
  intro fuel
  induction fuel with
  | zero =>
    intro n hn
    have : n = 0 := by omega
    subst this
    simp [bitLength]
  | succ fuel ih =>
    intro n hn
    by_cases h0 : n = 0
    · subst h0; simp [bitLength]
    · have hhalf : n / 2 ≤ fuel := by omega
      obtain ⟨h1, h2⟩ := ih (n / 2) hhalf
      have hb : bitLength (fuel + 1) n = bitLength fuel (n / 2) + 1 := by
        simp [bitLength, h0]
      rw [hb]
      constructor
      · rw [pow_succ]; omega
      · intro _
        simp only [Nat.add_sub_cancel]
        by_cases hh : 1 ≤ n / 2
        · have := h2 hh
          have hpos : 1 ≤ bitLength fuel (n / 2) := by
            by_contra hc
            have hz : bitLength fuel (n / 2) = 0 := by omega
            rw [hz] at h1
            simp at h1
            omega
          have hsplit : bitLength fuel (n / 2) = (bitLength fuel (n / 2) - 1) + 1 := by omega
          rw [hsplit, pow_succ]
          omega
        · have hn1 : n / 2 = 0 := by omega
          have hz : bitLength fuel (n / 2) = 0 := by
            rw [hn1]
            cases fuel <;> simp [bitLength]
          rw [hz]
          simp
          omega


/-- For an exponent that is not positive, `pow2` is the reciprocal of a power of two. -/
theorem pow2_nonpos (e : Int) (he : e ≤ 0) : pow2 e = 1 / (2 : ℚ) ^ (-e).toNat := by
  unfold pow2
  by_cases h : 0 ≤ e
  · have : e = 0 := by omega
    subst this
    simp
  · rw [if_neg h]

/-- The binary exponent of a positive rational below `2 ^ 53` is at most 52. -/
theorem floorLog2_le (t : ℚ) (hpos : 0 < t) (hlt : t < 2 ^ 53) : floorLog2 t ≤ 52 := by
  unfold floorLog2
  simp only
  split_ifs with hk
  · by_contra hc
    have hk53 : (53 : Int) ≤ (bitLength t.num.natAbs t.num.natAbs : Int)
        - (bitLength t.den t.den : Int) := by omega
    have h0 : (0 : Int) ≤ (bitLength t.num.natAbs t.num.natAbs : Int)
        - (bitLength t.den t.den : Int) := by omega
    unfold pow2 at hk
    rw [if_pos h0] at hk
    have hmono : (2 : ℚ) ^ 53 ≤ (2 : ℚ) ^ ((bitLength t.num.natAbs t.num.natAbs : Int)
        - (bitLength t.den t.den : Int)).toNat :=
      pow_le_pow_right₀ (by norm_num) (by omega)
    linarith
  · by_contra hc
    have hk54 : (bitLength t.den t.den : Int) + 54
        ≤ (bitLength t.num.natAbs t.num.natAbs : Int) := by omega
    have hnum : 0 < t.num := Rat.num_pos.2 hpos
    have ha : 1 ≤ t.num.natAbs := by omega
    have hb := (bitLength_spec t.den t.den (Nat.le_refl _)).1
    have hlow := (bitLength_spec t.num.natAbs t.num.natAbs (Nat.le_refl _)).2 ha
    have hexp : bitLength t.den t.den + 53 ≤ bitLength t.num.natAbs t.num.natAbs - 1 := by
      omega
    have hpow : 2 ^ (bitLength t.den t.den + 53)
        ≤ 2 ^ (bitLength t.num.natAbs t.num.natAbs - 1) :=
      Nat.pow_le_pow_right (by norm_num) hexp
    have hnat : t.den * 2 ^ 53 < t.num.natAbs := by
      have h1 : t.den * 2 ^ 53 < 2 ^ bitLength t.den t.den * 2 ^ 53 :=
        Nat.mul_lt_mul_of_pos_right hb (by norm_num)
      rw [← pow_add] at h1
      omega
    have habs : (t.num.natAbs : Int) = t.num := Int.natAbs_of_nonneg (le_of_lt hnum)
    have hint : ((t.den * 2 ^ 53 : Nat) : Int) < t.num := by
      rw [← habs]; exact_mod_cast hnat
    have hq : (t.den : ℚ) * 2 ^ 53 < (t.num : ℚ) := by exact_mod_cast hint
    have hden : (0 : ℚ) < t.den := by exact_mod_cast t.den_pos
    have ht : t = (t.num : ℚ) / (t.den : ℚ) := (Rat.num_div_den t).symm
    have : (2 : ℚ) ^ 53 < t := by
      rw [ht, lt_div_iff₀ hden]
      linarith
    linarith

/-- Rounding to the nearest integer respects an integer lower bound. -/
theorem le_roundHalfEven (k : Int) (t : ℚ) (h : (k : ℚ) ≤ t) : k ≤ roundHalfEven t := by
  have hfloor : k ≤ ⌊t⌋ := Int.le_floor.2 h
  have hdef : Rat.floor t = ⌊t⌋ := rfl
  unfold roundHalfEven
  simp only [hdef]
  split_ifs <;> omega

/-- Rounding to the nearest integer respects an integer upper bound. -/
theorem roundHalfEven_le (k : Int) (t : ℚ) (h : t ≤ (k : ℚ)) : roundHalfEven t ≤ k := by
  have hdef : Rat.floor t = ⌊t⌋ := rfl
  have hfl : (⌊t⌋ : ℚ) ≤ t := Int.floor_le t
  have hle : ⌊t⌋ ≤ k := by
    have : ((⌊t⌋ : Int) : ℚ) ≤ (k : ℚ) := le_trans hfl h
    exact_mod_cast this
  have hstrict : 0 < t - (⌊t⌋ : ℚ) → ⌊t⌋ + 1 ≤ k := by
    intro hr
    have : ((⌊t⌋ : Int) : ℚ) < (k : ℚ) := by linarith
    have : ⌊t⌋ < k := by exact_mod_cast this
    omega
  unfold roundHalfEven
  simp only [hdef]
  split_ifs with h1 h2 h3
  · exact hle
  · exact hstrict (by linarith)
  · exact hle
  · exact hstrict (by linarith)


/-- The rounding of a non-zero rational of magnitude below `2 ^ 53`: the nearest
multiple of a unit `1 / 2 ^ m`. -/
theorem roundDouble_small (q : ℚ) (h0 : q ≠ 0) (hq : |q| < 2 ^ 53) :
    ∃ m : Nat, roundDouble q = (roundHalfEven (q * 2 ^ m) : ℚ) / 2 ^ m := by
  have ht : 0 < (if q < 0 then -q else q) ∧ (if q < 0 then -q else q) < 2 ^ 53 := by
    have habs := abs_lt.1 hq
    split_ifs with hneg
    · constructor <;> linarith [habs.1, habs.2]
    · have : 0 < q := lt_of_le_of_ne (not_lt.1 hneg) (Ne.symm h0)
      exact ⟨this, habs.2⟩
  have hlog := floorLog2_le _ ht.1 ht.2
  have he : max (floorLog2 (if q < 0 then -q else q) - 52) (-1074) ≤ 0 :=
    max_le (by omega) (by norm_num)
  refine ⟨(-(max (floorLog2 (if q < 0 then -q else q) - 52) (-1074))).toNat, ?_⟩
  unfold roundDouble
  rw [if_neg h0]
  simp only [pow2_nonpos _ he]
  rw [div_div_eq_mul_div, div_one, mul_one_div]

/-- Rounding to a `double` does not go below an integer that the exact value is not
below. -/
theorem le_roundDouble (z : Int) (q : ℚ) (hq : |q| < 2 ^ 53) (h : (z : ℚ) ≤ q) :
    (z : ℚ) ≤ roundDouble q := by
  by_cases h0 : q = 0
  · subst h0
    have : roundDouble 0 = 0 := by simp [roundDouble]
    rw [this]; exact h
  · obtain ⟨m, hm⟩ := roundDouble_small q h0 hq
    have hP : (0 : ℚ) < 2 ^ m := by positivity
    have hcast : ((z * 2 ^ m : Int) : ℚ) ≤ q * 2 ^ m := by
      push_cast
      exact mul_le_mul_of_nonneg_right h (le_of_lt hP)
    have hr := le_roundHalfEven (z * 2 ^ m) (q * 2 ^ m) hcast
    have hrq : ((z * 2 ^ m : Int) : ℚ) ≤ (roundHalfEven (q * 2 ^ m) : ℚ) := by
      exact_mod_cast hr
    push_cast at hrq
    rw [hm, le_div_iff₀ hP]
    exact hrq

/-- Rounding to a `double` does not go above an integer that the exact value is not
above. -/
theorem roundDouble_le (z : Int) (q : ℚ) (hq : |q| < 2 ^ 53) (h : q ≤ (z : ℚ)) :
    roundDouble q ≤ (z : ℚ) := by
  by_cases h0 : q = 0
  · subst h0
    have : roundDouble 0 = 0 := by simp [roundDouble]
    rw [this]; exact h
  · obtain ⟨m, hm⟩ := roundDouble_small q h0 hq
    have hP : (0 : ℚ) < 2 ^ m := by positivity
    have hcast : q * 2 ^ m ≤ ((z * 2 ^ m : Int) : ℚ) := by
      push_cast
      exact mul_le_mul_of_nonneg_right h (le_of_lt hP)
    have hr := roundHalfEven_le (z * 2 ^ m) (q * 2 ^ m) hcast
    have hrq : (roundHalfEven (q * 2 ^ m) : ℚ) ≤ ((z * 2 ^ m : Int) : ℚ) := by
      exact_mod_cast hr
    push_cast at hrq
    rw [hm, div_le_iff₀ hP]
    exact hrq

/-- The average under a rounding `fl`, in terms of the value of `sequentialSum`. -/
theorem sequentialAverage_eq (fl : ℚ → ℚ) (S : List Int) :
    sequentialAverage fl S
      = if S.isEmpty then 0 else fl ((sequentialSum S : ℚ) / (S.length : ℚ)) := rfl

/-- The exact mean of a non-empty series whose sum is a 32-bit `int` has a magnitude
below `2 ^ 53`. -/
theorem mean_abs_lt (S : List Int) (hne : S ≠ [])
    (hsum : INT_MIN ≤ S.sum ∧ S.sum ≤ INT_MAX) :
    |(S.sum : ℚ) / (S.length : ℚ)| < 2 ^ 53 := by
  have hpos : 0 < S.length := List.length_pos.2 hne
  have hn : (1 : ℚ) ≤ (S.length : ℚ) := by exact_mod_cast hpos
  have habs : |(S.sum : ℚ)| ≤ 2147483648 := by
    simp only [INT_MIN, INT_MAX] at hsum
    rw [abs_le]
    constructor
    · have : (-2147483648 : Int) ≤ S.sum := hsum.1
      exact_mod_cast this
    · have : S.sum ≤ (2147483648 : Int) := by omega
      exact_mod_cast this
  rw [abs_div, abs_of_pos (lt_of_lt_of_le one_pos hn)]
  have hle : |(S.sum : ℚ)| / (S.length : ℚ) ≤ |(S.sum : ℚ)| :=
    div_le_self (abs_nonneg _) hn
  have : (2147483648 : ℚ) < 2 ^ 53 := by norm_num
  linarith

/-! ## The degenerate regression when no operation on the `x`-values rounds -/

/-- In arithmetic without rounding, when all `x`-values are the same (and
`ys` is as long as `xs`), both functions, the parallel one under every schedule that
deals each index `0 ≤ i < n` to exactly one worker slice, compute a divisor
`n * Sx2 - Sx * Sx` that is exactly 0, and no guard intervenes: the slope is a division
by zero, so neither coefficient is a finite number. -/
theorem degenerate_regression_exact (xs ys : List ℚ) (c t_start t_end : ℚ)
    (slices : List (List Nat)) (hlen : xs.length = ys.length) (hconst : ∀ v ∈ xs, v = c)
    (hpart : isPartition 0 (lr_n xs).toNat slices) :
    ∃ s : LrSums, sequential_lr_sums exactArith xs ys = some s
      ∧ parallel_lr_sums exactArith xs ys slices = some s
      ∧ lrDenominator exactArith (lr_n xs) s = 0
      ∧ sequential_lr exactArith xs ys t_start t_end = some ⟨none, none, t_end - t_start⟩
      ∧ parallel_lr exactArith xs ys slices t_start t_end
          = some ⟨none, none, t_end - t_start⟩ := by
  have hden := lrDenominator_const xs ys c hlen hconst
  have hfin : lrFinish exactArith (lr_n xs) (lrTotals (lrPoints xs ys)) t_start t_end
      = ⟨none, none, t_end - t_start⟩ := by
    rw [lrFinish_exact, hden, fdiv_exact]
    simp
  refine ⟨lrTotals (lrPoints xs ys), sequential_lr_sums_eq xs ys hlen,
    parallel_lr_sums_eq xs ys slices hlen hpart, hden, ?_, ?_⟩
  · rw [sequential_lr_eq xs ys t_start t_end hlen, hfin]
  · rw [parallel_lr_eq xs ys slices t_start t_end hlen hpart, hfin]

/-- C1: for every integer series and every schedule that deals each index
`0 ≤ i < n` to exactly one worker slice, `parallelSum` (private sums starting at 0,
added into the initial 0, every addition wrapping modulo 2^32) returns exactly the value
of `sequentialSum`. -/
theorem C1_parallelSum_eq_sequentialSum (S : List Int) (slices : List (List Nat))
    (hpart : isPartition 0 S.length slices) :
    parallelSum S slices = some (sequentialSum S) :=
  parallelSum_eq S slices hpart

/-- Witness for C1: a series whose sum overflows, under a strided two-worker schedule. -/
theorem C1_parallelSum_eq_sequentialSum_witness :
    isPartition 0 [2147483647, 1, 5].length [[2, 0], [1]]
      ∧ sequentialSum [2147483647, 1, 5] = -2147483643
      ∧ parallelSum [2147483647, 1, 5] [[2, 0], [1]]
          = some (sequentialSum [2147483647, 1, 5]) :=
  ⟨by decide, by decide,
    C1_parallelSum_eq_sequentialSum [2147483647, 1, 5] [[2, 0], [1]] (by decide)⟩

/-- C2: for every series of 32-bit integers and every schedule that deals each index
`1 ≤ i < n` to exactly one worker slice, `parallelMin` (private minima starting at
INT_MAX, combined by min into the initial `S[0]`) returns the value of `sequentialMin`. -/
theorem C2_parallelMin_eq_sequentialMin (S : List Int) (slices : List (List Nat))
    (hS : isIntVector S) (hpart : isPartition 1 S.length slices) :
    parallelMin S slices = some (sequentialMin S) :=
  parallelMin_eq S slices hS hpart

/-- Witness for C2: four elements, a strided schedule with one idle worker. -/
theorem C2_parallelMin_eq_sequentialMin_witness :
    isIntVector [7, -3, 9, -8] ∧ isPartition 1 [7, -3, 9, -8].length [[3, 1], [], [2]]
      ∧ sequentialMin [7, -3, 9, -8] = -8
      ∧ parallelMin [7, -3, 9, -8] [[3, 1], [], [2]] = some (sequentialMin [7, -3, 9, -8]) :=
  ⟨by decide, by decide, by decide,
    C2_parallelMin_eq_sequentialMin [7, -3, 9, -8] [[3, 1], [], [2]] (by decide) (by decide)⟩

/-- C3: for every series of 32-bit integers and every schedule that deals each index
`1 ≤ i < n` to exactly one worker slice, `parallelMax` (private maxima starting at
INT_MIN, combined by max into the initial `S[0]`) returns the value of `sequentialMax`. -/
theorem C3_parallelMax_eq_sequentialMax (S : List Int) (slices : List (List Nat))
    (hS : isIntVector S) (hpart : isPartition 1 S.length slices) :
    parallelMax S slices = some (sequentialMax S) :=
  parallelMax_eq S slices hS hpart

/-- Witness for C3: four elements, a strided schedule with one idle worker. -/
theorem C3_parallelMax_eq_sequentialMax_witness :
    isIntVector [-7, 3, -9, 8] ∧ isPartition 1 [-7, 3, -9, 8].length [[2], [], [3, 1]]
      ∧ sequentialMax [-7, 3, -9, 8] = 8
      ∧ parallelMax [-7, 3, -9, 8] [[2], [], [3, 1]] = some (sequentialMax [-7, 3, -9, 8]) :=
  ⟨by decide, by decide, by decide,
    C3_parallelMax_eq_sequentialMax [-7, 3, -9, 8] [[2], [], [3, 1]] (by decide) (by decide)⟩

/-- C4: on the empty series the minimum is the sentinel 2147483647, the maximum is the
sentinel -2147483648, the sum is 0 and the average is 0, in the sequential and in the
parallel functions alike. The guarded functions return before their loop and before any
division, whatever the schedule `idle` and the rounding `fl`; the loop of `parallelSum`
has no iteration to deal out. -/
theorem C4_empty_series (fl : ℚ → ℚ) (slices idle : List (List Nat))
    (hpart : isPartition 0 ([] : List Int).length slices) :
    sequentialMin [] = 2147483647 ∧ parallelMin [] idle = some 2147483647
      ∧ sequentialMax [] = -2147483648 ∧ parallelMax [] idle = some (-2147483648)
      ∧ sequentialSum [] = 0 ∧ parallelSum [] slices = some 0
      ∧ sequentialAverage fl [] = 0 ∧ parallelAverage fl [] idle = some 0 :=
  ⟨rfl, rfl, rfl, rfl, rfl, parallelSum_eq [] slices hpart, rfl, rfl⟩

/-- Witness for C4: two workers, neither of which receives an iteration. -/
theorem C4_empty_series_witness :
    isPartition 0 ([] : List Int).length [[], []]
      ∧ parallelSum [] [[], []] = some 0
      ∧ parallelAverage roundDouble [] [[0], [5]] = some 0 :=
  ⟨by decide, (C4_empty_series roundDouble [[], []] [[0], [5]] (by decide)).2.2.2.2.2.1,
    (C4_empty_series roundDouble [[], []] [[0], [5]] (by decide)).2.2.2.2.2.2.2⟩

/-- C5: for points on a line `y = a * x + b` (equal lengths, `ys[i] = a * xs[i] + b`
at every index) with two distinct `x`-values, which forces at least two points, and a
size that fits `int n`, `sequential_lr` and `parallel_lr` (under every schedule that
deals each index to exactly one worker slice) return exactly `beta1 = a` and
`beta0 = b` over the rationals, the divisor `n * Sx2 - Sx * Sx` being non-zero. The
slope `a` need not be non-zero. -/
theorem C5_exact_line_recovery (xs ys : List ℚ) (a b t_start t_end : ℚ)
    (slices : List (List Nat)) (hlen : ys.length = xs.length)
    (hline : ∀ (i : Nat) (hx : i < xs.length) (hy : i < ys.length), ys[i] = a * xs[i] + b)
    (hsize : (xs.length : Int) ≤ INT_MAX) (hdist : ∃ u ∈ xs, ∃ v ∈ xs, u ≠ v)
    (hpart : isPartition 0 xs.length slices) :
    sequential_lr exactArith xs ys t_start t_end = some ⟨some b, some a, t_end - t_start⟩
      ∧ parallel_lr exactArith xs ys slices t_start t_end
          = some ⟨some b, some a, t_end - t_start⟩
      ∧ ∃ s : LrSums, sequential_lr_sums exactArith xs ys = some s
          ∧ parallel_lr_sums exactArith xs ys slices = some s
          ∧ lrDenominator exactArith (lr_n xs) s ≠ 0 := by
  have hys : ys = xs.map (fun v => a * v + b) := by
    apply List.ext_getElem
    · rw [hlen, List.length_map]
    · intro i h1 h2
      have hx : i < xs.length := by rw [← hlen]; exact h1
      rw [hline i hx h1, List.getElem_map]
  have hpart2 : isPartition 0 (lr_n xs).toNat slices := by
    rw [lr_n_eq xs hsize, Int.toNat_ofNat]; exact hpart
  have hden := lr_den_pos xs hdist
  have hcount : (0 : ℚ) < xs.length := by
    obtain ⟨u, hu, _⟩ := hdist
    exact_mod_cast List.length_pos_of_mem hu
  have htot : lrTotals (lrPoints xs ys)
      = ⟨xs.sum, a * xs.sum + xs.length * b,
         a * (xs.map (fun v => v * v)).sum + b * xs.sum, (xs.map (fun v => v * v)).sum⟩ := by
    rw [lrPoints_eq_zip xs ys hsize, hys, lrTotals_line]
  have hd : lrDenominator exactArith (lr_n xs) (lrTotals (lrPoints xs ys)) ≠ 0 := by
    rw [htot, lr_n_eq xs hsize, lrDenominator_exact]
    simp only [Int.cast_natCast]
    exact ne_of_gt hden
  have hfin : lrFinish exactArith (lr_n xs) (lrTotals (lrPoints xs ys)) t_start t_end
      = ⟨some b, some a, t_end - t_start⟩ := by
    have hd2 := hd
    rw [htot, lr_n_eq xs hsize, lrDenominator_exact] at hd2
    rw [htot, lr_n_eq xs hsize, lrFinish_exact, lrNumerator_exact, lrDenominator_exact]
    simp only [Int.cast_natCast] at hd2 ⊢
    have h1 : fdiv exactArith
        ((xs.length : ℚ) * (a * (xs.map (fun v => v * v)).sum + b * xs.sum)
          - xs.sum * (a * xs.sum + xs.length * b))
        ((xs.length : ℚ) * (xs.map (fun v => v * v)).sum - xs.sum * xs.sum) = some a := by
      rw [fdiv_exact, if_neg hd2]
      congr 1
      field_simp
      ring
    have h2 : fdiv exactArith (a * xs.sum + xs.length * b - a * xs.sum) (xs.length : ℚ)
        = some b := by
      rw [fdiv_exact, if_neg (ne_of_gt hcount)]
      congr 1
      field_simp
    rw [h1, Option.some_bind, h2]
  have hlen2 : xs.length = ys.length := hlen.symm
  refine ⟨?_, ?_, lrTotals (lrPoints xs ys), sequential_lr_sums_eq xs ys hlen2,
    parallel_lr_sums_eq xs ys slices hlen2 hpart2, hd⟩
  · rw [sequential_lr_eq xs ys t_start t_end hlen2, hfin]
  · rw [parallel_lr_eq xs ys slices t_start t_end hlen2 hpart2, hfin]

/-- Witness for C5: three points on `y = 2 * x + 3`, two workers. -/
theorem C5_exact_line_recovery_witness :
    isPartition 0 [(1 : ℚ), 3, 3].length [[2], [0, 1]]
      ∧ sequential_lr exactArith [1, 3, 3] [5, 9, 9] 10 12 = some ⟨some 3, some 2, 12 - 10⟩
      ∧ parallel_lr exactArith [1, 3, 3] [5, 9, 9] [[2], [0, 1]] 10 12 = some ⟨some 3, some 2, 12 - 10⟩
      ∧ ∃ s : LrSums, sequential_lr_sums exactArith [1, 3, 3] [5, 9, 9] = some s
          ∧ parallel_lr_sums exactArith [1, 3, 3] [5, 9, 9] [[2], [0, 1]] = some s
          ∧ lrDenominator exactArith (lr_n [1, 3, 3]) s ≠ 0 :=
  ⟨by decide,
    C5_exact_line_recovery [1, 3, 3] [5, 9, 9] 2 3 10 12 [[2], [0, 1]] rfl
      (by
        intro i hx hy
        have h3 : i < 3 := hx
        interval_cases i <;> norm_num)
      (by decide) ⟨1, by simp, 3, by simp, by norm_num⟩ (by decide)⟩

/-- C6: on `x = [1,2,3,4,5]`, `y = [2,4,5,4,5]` both functions, the parallel one under
every schedule that deals each index to exactly one worker slice, compute `Sx = 15`,
`Sy = 20`, `Sxy = 66`, `Sx2 = 55`, a dividend 30 and a divisor 50, and return
`beta1 = 3/5` and `beta0 = 11/5`. -/
theorem C6_known_dataset (slices : List (List Nat)) (t_start t_end : ℚ)
    (hpart : isPartition 0 main_x.length slices) :
    sequential_lr_sums exactArith main_x main_y = some ⟨15, 20, 66, 55⟩
      ∧ parallel_lr_sums exactArith main_x main_y slices = some ⟨15, 20, 66, 55⟩
      ∧ lrNumerator exactArith (lr_n main_x) ⟨15, 20, 66, 55⟩ = 30
      ∧ lrDenominator exactArith (lr_n main_x) ⟨15, 20, 66, 55⟩ = 50
      ∧ sequential_lr exactArith main_x main_y t_start t_end
          = some ⟨some (11 / 5), some (3 / 5), t_end - t_start⟩
      ∧ parallel_lr exactArith main_x main_y slices t_start t_end
          = some ⟨some (11 / 5), some (3 / 5), t_end - t_start⟩ := by
  have hn : lr_n main_x = 5 := by decide
  have hpart2 : isPartition 0 (lr_n main_x).toNat slices := by rw [hn]; exact hpart
  have hlen : main_x.length = main_y.length := rfl
  have htot : lrTotals (lrPoints main_x main_y) = ⟨15, 20, 66, 55⟩ := by
    unfold lrPoints
    rw [hn, show Int.toNat 5 = 5 from rfl]
    simp only [main_x, main_y, lrTotals]
    norm_num
  have hnum : lrNumerator exactArith (lr_n main_x) ⟨15, 20, 66, 55⟩ = 30 := by
    rw [hn, lrNumerator_exact]; norm_num
  have hden : lrDenominator exactArith (lr_n main_x) ⟨15, 20, 66, 55⟩ = 50 := by
    rw [hn, lrDenominator_exact]; norm_num
  have hfin : lrFinish exactArith (lr_n main_x) ⟨15, 20, 66, 55⟩ t_start t_end
      = ⟨some (11 / 5), some (3 / 5), t_end - t_start⟩ := by
    have hnum5 := hnum
    have hden5 := hden
    rw [hn] at hnum5 hden5 ⊢
    rw [lrFinish_exact, hnum5, hden5, fdiv_exact]
    norm_num [fdiv_exact]
  refine ⟨?_, ?_, hnum, hden, ?_, ?_⟩
  · rw [sequential_lr_sums_eq main_x main_y hlen, htot]
  · rw [parallel_lr_sums_eq main_x main_y slices hlen hpart2, htot]
  · rw [sequential_lr_eq main_x main_y t_start t_end hlen, htot, hfin]
  · rw [parallel_lr_eq main_x main_y slices t_start t_end hlen hpart2, htot, hfin]

/-- Witness for C6: two workers with interleaved indices. -/
theorem C6_known_dataset_witness :
    isPartition 0 main_x.length [[0, 2, 4], [1, 3]]
      ∧ parallel_lr_sums exactArith main_x main_y [[0, 2, 4], [1, 3]] = some ⟨15, 20, 66, 55⟩
      ∧ parallel_lr exactArith main_x main_y [[0, 2, 4], [1, 3]] 0 1
          = some ⟨some (11 / 5), some (3 / 5), 1 - 0⟩ :=
  ⟨by decide, (C6_known_dataset [[0, 2, 4], [1, 3]] 0 1 (by decide)).2.1,
    (C6_known_dataset [[0, 2, 4], [1, 3]] 0 1 (by decide)).2.2.2.2.2⟩

/-- C8: for every non-empty series and every schedule that deals each index
`0 ≤ i < n` to exactly one worker slice, `parallelAverage` returns a value within
1e-9 of `sequentialAverage`. The two are in fact equal, with the quotient kept exact
(`fl = exactArith`) and under any rounding `fl` of the quotient. -/
theorem C8_parallelAverage_close (fl : ℚ → ℚ) (S : List Int) (slices : List (List Nat))
    (hne : S ≠ []) (hpart : isPartition 0 S.length slices) :
    ∃ p : ℚ, parallelAverage fl S slices = some p
      ∧ |p - sequentialAverage fl S| ≤ 1 / 1000000000
      ∧ p = sequentialAverage fl S := by
  refine ⟨sequentialAverage fl S, ?_, ?_, rfl⟩
  · have hempty : S.isEmpty = false := by
      cases S with
      | nil => exact absurd rfl hne
      | cons _ _ => rfl
    simp [parallelAverage, sequentialAverage, hempty, parallelSum_eq S slices hpart]
  · rw [sub_self, abs_zero]; norm_num

/-- Witness for C8: an overflowing series of three elements under a strided schedule,
the quotient kept exact. -/
theorem C8_parallelAverage_close_witness :
    [2147483647, 1, 5] ≠ ([] : List Int)
      ∧ isPartition 0 [2147483647, 1, 5].length [[2, 0], [1]]
      ∧ ∃ p : ℚ, parallelAverage exactArith [2147483647, 1, 5] [[2, 0], [1]] = some p
          ∧ |p - sequentialAverage exactArith [2147483647, 1, 5]| ≤ 1 / 1000000000
          ∧ p = sequentialAverage exactArith [2147483647, 1, 5] :=
  ⟨by decide, by decide,
    C8_parallelAverage_close exactArith [2147483647, 1, 5] [[2, 0], [1]] (by decide)
      (by decide)⟩

/-- C9: for `xs` and `ys` of equal length and every schedule that deals each index
`0 ≤ i < n` to exactly one worker slice, the one schedule serving the four reductions,
`parallel_lr` produces the same four sums `Sx`, `Sy`, `Sxy`, `Sx2` as `sequential_lr`
and returns the same `beta0` and `beta1`, in arithmetic without rounding, whatever the
clock readings of the two calls. -/
theorem C9_parallel_lr_eq_sequential_lr (xs ys : List ℚ) (slices : List (List Nat))
    (seq_start seq_end par_start par_end : ℚ) (hlen : xs.length = ys.length)
    (hpart : isPartition 0 (lr_n xs).toNat slices) :
    ∃ (s : LrSums) (beta0 beta1 : Option ℚ),
      sequential_lr_sums exactArith xs ys = some s
        ∧ parallel_lr_sums exactArith xs ys slices = some s
        ∧ sequential_lr exactArith xs ys seq_start seq_end
            = some ⟨beta0, beta1, seq_end - seq_start⟩
        ∧ parallel_lr exactArith xs ys slices par_start par_end
            = some ⟨beta0, beta1, par_end - par_start⟩ :=
  ⟨lrTotals (lrPoints xs ys),
    (lrFinish exactArith (lr_n xs) (lrTotals (lrPoints xs ys)) seq_start seq_end).beta0,
    (lrFinish exactArith (lr_n xs) (lrTotals (lrPoints xs ys)) seq_start seq_end).beta1,
    sequential_lr_sums_eq xs ys hlen, parallel_lr_sums_eq xs ys slices hlen hpart,
    sequential_lr_eq xs ys seq_start seq_end hlen,
    parallel_lr_eq xs ys slices par_start par_end hlen hpart⟩

/-- Witness for C9: the data of `main` under a schedule of three workers. -/
theorem C9_parallel_lr_eq_sequential_lr_witness :
    main_x.length = main_y.length ∧ isPartition 0 (lr_n main_x).toNat [[4, 0], [2], [1, 3]]
      ∧ ∃ (s : LrSums) (beta0 beta1 : Option ℚ),
          sequential_lr_sums exactArith main_x main_y = some s
            ∧ parallel_lr_sums exactArith main_x main_y [[4, 0], [2], [1, 3]] = some s
            ∧ sequential_lr exactArith main_x main_y 0 2 = some ⟨beta0, beta1, 2 - 0⟩
            ∧ parallel_lr exactArith main_x main_y [[4, 0], [2], [1, 3]] 3 4
                = some ⟨beta0, beta1, 4 - 3⟩ :=
  ⟨rfl, by decide,
    C9_parallel_lr_eq_sequential_lr main_x main_y [[4, 0], [2], [1, 3]] 0 2 3 4 rfl
      (by decide)⟩

/-- C10: on the literal data `[1,4,8,6,9,5,3,11,22,33,44,55,66]` the sequential
minimum is 1, the maximum 66, the sum 267 and the average 267/13, which lies between
20.538 and 20.539 also after rounding to a `double`, and the parallel functions return
the same values under every schedule that deals each iteration of their loop to exactly
one worker slice. -/
theorem C10_statistics_scenario (slices1 slices0 : List (List Nat))
    (h1 : isPartition 1 main_data.length slices1)
    (h0 : isPartition 0 main_data.length slices0) :
    sequentialMin main_data = 1 ∧ sequentialMax main_data = 66
      ∧ sequentialSum main_data = 267 ∧ sequentialAverage exactArith main_data = 267 / 13
      ∧ (20538 : ℚ) / 1000 ≤ sequentialAverage exactArith main_data
      ∧ sequentialAverage exactArith main_data < 20539 / 1000
      ∧ (20538 : ℚ) / 1000 ≤ sequentialAverage roundDouble main_data
      ∧ sequentialAverage roundDouble main_data < 20539 / 1000
      ∧ parallelMin main_data slices1 = some 1 ∧ parallelMax main_data slices1 = some 66
      ∧ parallelSum main_data slices0 = some 267
      ∧ parallelAverage exactArith main_data slices0 = some (267 / 13)
      ∧ parallelAverage roundDouble main_data slices0
          = some (sequentialAverage roundDouble main_data) := by
  have hmin : sequentialMin main_data = 1 := by decide
  have hmax : sequentialMax main_data = 66 := by decide
  have hsum : sequentialSum main_data = 267 := by decide
  have hlen : main_data.length = 13 := rfl
  have hempty : main_data.isEmpty = false := rfl
  have havg : sequentialAverage exactArith main_data = 267 / 13 := by
    simp only [sequentialAverage, hsum, hlen, hempty]
    norm_num [exactArith]
  have hvec : isIntVector main_data := by decide
  refine ⟨hmin, hmax, hsum, havg, ?_, ?_, by decide!, by decide!, ?_, ?_, ?_, ?_, ?_⟩
  · rw [havg]; norm_num
  · rw [havg]; norm_num
  · rw [parallelMin_eq main_data slices1 hvec h1, hmin]
  · rw [parallelMax_eq main_data slices1 hvec h1, hmax]
  · rw [parallelSum_eq main_data slices0 h0, hsum]
  · simp only [parallelAverage, parallelSum_eq main_data slices0 h0, hsum, hlen, hempty]
    norm_num [exactArith]
  · simp only [parallelAverage, sequentialAverage, parallelSum_eq main_data slices0 h0,
      hempty]
    rfl

/-- Witness for C10: three workers with contiguous chunks for the minimum and the
maximum, two workers with interleaved indices for the sum and the average. -/
theorem C10_statistics_scenario_witness :
    isPartition 1 main_data.length [[1, 2, 3, 4], [5, 6, 7, 8], [9, 10, 11, 12]]
      ∧ isPartition 0 main_data.length [[0, 2, 4, 6, 8, 10, 12], [1, 3, 5, 7, 9, 11]]
      ∧ parallelMin main_data [[1, 2, 3, 4], [5, 6, 7, 8], [9, 10, 11, 12]] = some 1
      ∧ parallelSum main_data [[0, 2, 4, 6, 8, 10, 12], [1, 3, 5, 7, 9, 11]] = some 267 :=
  ⟨by decide, by decide,
    (C10_statistics_scenario [[1, 2, 3, 4], [5, 6, 7, 8], [9, 10, 11, 12]]
      [[0, 2, 4, 6, 8, 10, 12], [1, 3, 5, 7, 9, 11]] (by decide)
      (by decide)).2.2.2.2.2.2.2.2.1,
    (C10_statistics_scenario [[1, 2, 3, 4], [5, 6, 7, 8], [9, 10, 11, 12]]
      [[0, 2, 4, 6, 8, 10, 12], [1, 3, 5, 7, 9, 11]] (by decide)
      (by decide)).2.2.2.2.2.2.2.2.2.2.1⟩

/-- C11: order independence. For every integer series `S` and every permutation `T`
of it, `sequentialMin`, `sequentialMax` and `sequentialSum` (additions wrapping at 32
bits) return on `T` what they return on `S`. -/
theorem C11_order_independence (S T : List Int) (hperm : List.Perm T S) :
    sequentialMin T = sequentialMin S ∧ sequentialMax T = sequentialMax S
      ∧ sequentialSum T = sequentialSum S :=
  ⟨sequentialMin_perm hperm, sequentialMax_perm hperm, sequentialSum_perm hperm⟩

/-- Witness for C11: a series whose sum overflows, and a rearrangement of it. -/
theorem C11_order_independence_witness :
    List.Perm [5, 2147483647, 3, -1] [3, -1, 2147483647, 5]
      ∧ sequentialSum [3, -1, 2147483647, 5] = -2147483642
      ∧ sequentialMin [5, 2147483647, 3, -1] = sequentialMin [3, -1, 2147483647, 5]
      ∧ sequentialMax [5, 2147483647, 3, -1] = sequentialMax [3, -1, 2147483647, 5]
      ∧ sequentialSum [5, 2147483647, 3, -1] = sequentialSum [3, -1, 2147483647, 5] :=
  ⟨by decide, by decide,
    C11_order_independence [3, -1, 2147483647, 5] [5, 2147483647, 3, -1] (by decide)⟩

/-- C12: for `xs` and `ys` of equal length `n` (a size that fits `int n`),
`sequential_lr` accumulates in one left-to-right pass `Sx = Σ xs[i]`, `Sy = Σ ys[i]`,
`Sxy = Σ xs[i] * ys[i]` and `Sx2 = Σ xs[i] ^ 2`, and returns
`beta1 = (n * Sxy - Sx * Sy) / (n * Sx2 - Sx * Sx)` and `beta0 = (Sy - beta1 * Sx) / n`
in arithmetic without rounding, a division by zero giving no finite number. The two
coefficients are the same for any two pairs of clock readings: they do not depend on
the measured time. -/
theorem C12_sequential_lr_closed_form (xs ys : List ℚ) (t_start t_end t_start2 t_end2 : ℚ)
    (hlen : xs.length = ys.length) (hsize : (xs.length : Int) ≤ INT_MAX) :
    ∃ (Sx Sy Sxy Sx2 : ℚ) (beta0 beta1 : Option ℚ),
      Sx = xs.sum ∧ Sy = ys.sum ∧ Sxy = (List.zipWith (fun u v => u * v) xs ys).sum
        ∧ Sx2 = (xs.map (fun v => v * v)).sum
        ∧ (xs.zip ys).foldl lrStep lrZero = ⟨Sx, Sy, Sxy, Sx2⟩
        ∧ sequential_lr_sums exactArith xs ys = some ⟨Sx, Sy, Sxy, Sx2⟩
        ∧ beta1 = (if (xs.length : ℚ) * Sx2 - Sx * Sx = 0 then none
            else some (((xs.length : ℚ) * Sxy - Sx * Sy) / ((xs.length : ℚ) * Sx2 - Sx * Sx)))
        ∧ beta0 = beta1.bind (fun b1 =>
            if (xs.length : ℚ) = 0 then none else some ((Sy - b1 * Sx) / (xs.length : ℚ)))
        ∧ sequential_lr exactArith xs ys t_start t_end
            = some ⟨beta0, beta1, t_end - t_start⟩
        ∧ sequential_lr exactArith xs ys t_start2 t_end2
            = some ⟨beta0, beta1, t_end2 - t_start2⟩ := by
  have hpts : lrPoints xs ys = xs.zip ys := lrPoints_eq_zip xs ys hsize
  have htot := lrTotals_zip xs ys hlen
  have hfold : (xs.zip ys).foldl lrStep lrZero = lrTotals (xs.zip ys) := by
    rw [foldl_lrStep, lrAdd_lrZero]
  have hfin : ∀ t1 t2 : ℚ, sequential_lr exactArith xs ys t1 t2
      = some ⟨(if (xs.length : ℚ) * (xs.map (fun v => v * v)).sum - xs.sum * xs.sum = 0
            then none
            else some (((xs.length : ℚ) * (List.zipWith (fun u v => u * v) xs ys).sum
              - xs.sum * ys.sum)
              / ((xs.length : ℚ) * (xs.map (fun v => v * v)).sum - xs.sum * xs.sum))).bind
          (fun b1 => if (xs.length : ℚ) = 0 then none
            else some ((ys.sum - b1 * xs.sum) / (xs.length : ℚ))),
        (if (xs.length : ℚ) * (xs.map (fun v => v * v)).sum - xs.sum * xs.sum = 0 then none
          else some (((xs.length : ℚ) * (List.zipWith (fun u v => u * v) xs ys).sum
            - xs.sum * ys.sum)
            / ((xs.length : ℚ) * (xs.map (fun v => v * v)).sum - xs.sum * xs.sum))),
        t2 - t1⟩ := by
    intro t1 t2
    rw [sequential_lr_eq xs ys t1 t2 hlen, hpts, htot, lr_n_eq xs hsize, lrFinish_exact,
      lrNumerator_exact, lrDenominator_exact]
    simp only [fdiv_exact, Int.cast_natCast]
  refine ⟨xs.sum, ys.sum, (List.zipWith (fun u v => u * v) xs ys).sum,
    (xs.map (fun v => v * v)).sum, _, _, rfl, rfl, rfl, rfl, ?_, ?_, rfl, rfl,
    hfin t_start t_end, hfin t_start2 t_end2⟩
  · rw [hfold, htot]
  · rw [sequential_lr_sums_eq xs ys hlen, hpts, htot]

/-- Witness for C12: the data of `main`, and two different pairs of clock readings. -/
theorem C12_sequential_lr_closed_form_witness :
    main_x.length = main_y.length ∧ (main_x.length : Int) ≤ INT_MAX
      ∧ ∃ (Sx Sy Sxy Sx2 : ℚ) (beta0 beta1 : Option ℚ),
        Sx = main_x.sum ∧ Sy = main_y.sum
          ∧ Sxy = (List.zipWith (fun u v => u * v) main_x main_y).sum
          ∧ Sx2 = (main_x.map (fun v => v * v)).sum
          ∧ (main_x.zip main_y).foldl lrStep lrZero = ⟨Sx, Sy, Sxy, Sx2⟩
          ∧ sequential_lr_sums exactArith main_x main_y = some ⟨Sx, Sy, Sxy, Sx2⟩
          ∧ beta1 = (if (main_x.length : ℚ) * Sx2 - Sx * Sx = 0 then none
              else some (((main_x.length : ℚ) * Sxy - Sx * Sy)
                / ((main_x.length : ℚ) * Sx2 - Sx * Sx)))
          ∧ beta0 = beta1.bind (fun b1 =>
              if (main_x.length : ℚ) = 0 then none
              else some ((Sy - b1 * Sx) / (main_x.length : ℚ)))
          ∧ sequential_lr exactArith main_x main_y 0 1 = some ⟨beta0, beta1, 1 - 0⟩
          ∧ sequential_lr exactArith main_x main_y 5 9 = some ⟨beta0, beta1, 9 - 5⟩ :=
  ⟨rfl, by decide, C12_sequential_lr_closed_form main_x main_y 0 1 5 9 rfl (by decide)⟩

/-- C13: for every non-empty integer series `S`, `sequentialMin S` is an element of `S`
and is less than or equal to every element of `S`. -/
theorem C13_sequentialMin_is_least (S : List Int) (hne : S ≠ []) :
    sequentialMin S ∈ S ∧ ∀ v ∈ S, sequentialMin S ≤ v :=
  ⟨sequentialMin_mem S hne, sequentialMin_le S⟩

/-- Witness for C13: the minimum stands in the middle of the series. -/
theorem C13_sequentialMin_is_least_witness :
    [4, -7, 9] ≠ ([] : List Int) ∧ sequentialMin [4, -7, 9] = -7
      ∧ sequentialMin [4, -7, 9] ∈ [4, -7, 9]
      ∧ ∀ v ∈ [4, -7, 9], sequentialMin [4, -7, 9] ≤ v :=
  ⟨by decide, by decide, C13_sequentialMin_is_least [4, -7, 9] (by decide)⟩

/-- C14: for every non-empty integer series `S`, `sequentialMax S` is an element of `S`
and is greater than or equal to every element of `S`. -/
theorem C14_sequentialMax_is_greatest (S : List Int) (hne : S ≠ []) :
    sequentialMax S ∈ S ∧ ∀ v ∈ S, v ≤ sequentialMax S :=
  ⟨sequentialMax_mem S hne, le_sequentialMax S⟩

/-- Witness for C14: the maximum stands in the middle of the series. -/
theorem C14_sequentialMax_is_greatest_witness :
    [-4, 7, -9] ≠ ([] : List Int) ∧ sequentialMax [-4, 7, -9] = 7
      ∧ sequentialMax [-4, 7, -9] ∈ [-4, 7, -9]
      ∧ ∀ v ∈ [-4, 7, -9], v ≤ sequentialMax [-4, 7, -9] :=
  ⟨by decide, by decide, C14_sequentialMax_is_greatest [-4, 7, -9] (by decide)⟩

/-- C15: for every integer series whose left-to-right partial sums, the full sum
included, are 32-bit `int`s, `sequentialSum` returns the exact sum of the elements, no
addition overflowing, and `sequentialAverage` returns that sum divided by the length as
an exact rational (0 on the empty series). Without the range hypothesis, on any series
`T`, the returned sum is congruent to the exact sum modulo `2 ^ 32`, and it may differ
from it, as on `[2147483647, 1]`. -/
theorem C15_sum_and_average_exact (S T : List Int)
    (hsums : ∀ k, k ≤ S.length → INT_MIN ≤ (S.take k).sum ∧ (S.take k).sum ≤ INT_MAX) :
    sequentialSum S = S.sum ∧ sequentialSumChecked S = some S.sum
      ∧ sequentialAverage exactArith S
          = (if S.isEmpty then 0 else (S.sum : ℚ) / (S.length : ℚ))
      ∧ (sequentialSum T - T.sum) % 4294967296 = 0
      ∧ sequentialSum [2147483647, 1] ≠ List.sum [2147483647, 1] := by
  have hfull : INT_MIN ≤ S.sum ∧ S.sum ≤ INT_MAX := by
    simpa using hsums S.length (Nat.le_refl _)
  refine ⟨sequentialSum_eq_sum S hfull, sequentialSumChecked_eq S hsums, ?_, ?_, by decide⟩
  · rw [sequentialAverage_exact, sequentialSum_eq_sum S hfull]
  · rw [sequentialSum_eq_wrap32_sum]; exact wrap32_sub_emod _

/-- Witness for C15: partial sums 2147483647, 7, 10 on `S`, and an overflowing `T`. -/
theorem C15_sum_and_average_exact_witness :
    sequentialSum [2147483647, -2147483640, 3] = List.sum [2147483647, -2147483640, 3]
      ∧ sequentialSumChecked [2147483647, -2147483640, 3]
          = some (List.sum [2147483647, -2147483640, 3])
      ∧ sequentialAverage exactArith [2147483647, -2147483640, 3]
          = (if [2147483647, -2147483640, 3].isEmpty then 0
              else ((List.sum [2147483647, -2147483640, 3] : Int) : ℚ)
                / ([2147483647, -2147483640, 3].length : ℚ))
      ∧ (sequentialSum [2147483647, 2147483647] - List.sum [2147483647, 2147483647])
          % 4294967296 = 0
      ∧ sequentialSum [2147483647, 1] ≠ List.sum [2147483647, 1] :=
  C15_sum_and_average_exact [2147483647, -2147483640, 3] [2147483647, 2147483647]
    (by
      intro k hk
      have h3 : k ≤ 3 := hk
      interval_cases k <;> decide)

/-- C16: when `xs` and `ys` have the same length, every index `i` that the loop of
`sequential_lr` visits, and every index that a worker of `parallel_lr` visits under a
schedule of the indices `0 ≤ i < n`, is within `xs` and within `ys`, so that neither
function ever takes the out-of-range branch of `x[i]` or `y[i]`: both return a result,
under any rounding. The loop bound comes from `xs` alone: on `xs = [1, 2]`, `ys = [1]`
the access `y[1]` is out of range. -/
theorem C16_index_accesses_in_bounds (fl : ℚ → ℚ) (xs ys : List ℚ)
    (slices : List (List Nat)) (t_start t_end : ℚ) (hlen : xs.length = ys.length)
    (hpart : isPartition 0 (lr_n xs).toNat slices) :
    (∀ i ∈ List.range (lr_n xs).toNat, i < xs.length ∧ i < ys.length)
      ∧ (∀ s ∈ slices, ∀ i ∈ s, i < xs.length ∧ i < ys.length)
      ∧ (∃ out, sequential_lr fl xs ys t_start t_end = some out)
      ∧ (∃ out, parallel_lr fl xs ys slices t_start t_end = some out)
      ∧ sequential_lr fl [1, 2] [1] t_start t_end = none := by
  have hn := lr_n_toNat_le xs
  have hseq : ∀ i ∈ List.range (lr_n xs).toNat, i < xs.length ∧ i < ys.length := by
    intro i hi
    rw [List.mem_range] at hi
    omega
  have hpar : ∀ s ∈ slices, ∀ i ∈ s, i < xs.length ∧ i < ys.length := by
    intro s hs i hi
    have := isPartition_lt hpart s hs i hi
    omega
  refine ⟨hseq, hpar, ?_, ?_, ?_⟩
  · obtain ⟨r, hr⟩ := foldlM_lrBody_in_range fl xs ys _ lrZero hseq
    refine ⟨lrFinish fl (lr_n xs) r t_start t_end, ?_⟩
    unfold sequential_lr sequential_lr_sums
    rw [hr]; rfl
  · obtain ⟨r, hr⟩ := ompReduce_in_range (lrBody fl xs ys) lrZero (lrAdd fl) slices lrZero
      (fun s hs => foldlM_lrBody_in_range fl xs ys s lrZero (hpar s hs))
    refine ⟨lrFinish fl (lr_n xs) r t_start t_end, ?_⟩
    unfold parallel_lr parallel_lr_sums
    rw [hr]; rfl
  · exact sequential_lr_short_y fl [1, 2] [1] t_start t_end (by decide)

/-- Witness for C16: the data of `main`, three workers, rounding to `double`. -/
theorem C16_index_accesses_in_bounds_witness :
    main_x.length = main_y.length
      ∧ isPartition 0 (lr_n main_x).toNat [[4, 0], [2], [1, 3]]
      ∧ (∀ i ∈ List.range (lr_n main_x).toNat, i < main_x.length ∧ i < main_y.length)
      ∧ (∀ s ∈ [[4, 0], [2], [1, 3]], ∀ i ∈ s, i < main_x.length ∧ i < main_y.length)
      ∧ (∃ out, sequential_lr roundDouble main_x main_y 0 1 = some out)
      ∧ (∃ out, parallel_lr roundDouble main_x main_y [[4, 0], [2], [1, 3]] 0 1 = some out)
      ∧ sequential_lr roundDouble [1, 2] [1] 0 1 = none :=
  ⟨rfl, by decide,
    C16_index_accesses_in_bounds roundDouble main_x main_y [[4, 0], [2], [1, 3]] 0 1 rfl
      (by decide)⟩

/-- C17: least-squares optimality. For `xs` and `ys` of equal length (a size that fits
`int n`) with two distinct `x`-values, which forces at least two points,
`sequential_lr` returns finite coefficients `beta0` and `beta1` in arithmetic without
rounding, and for all rationals `a` and `b` the sum of squared residuals of the line
`y = beta1 * x + beta0` is at most that of the line `y = a * x + b`. -/
theorem C17_least_squares_optimality (xs ys : List ℚ) (t_start t_end : ℚ)
    (hlen : xs.length = ys.length) (hsize : (xs.length : Int) ≤ INT_MAX)
    (hdist : ∃ u ∈ xs, ∃ v ∈ xs, u ≠ v) :
    ∃ beta0 beta1 : ℚ,
      sequential_lr exactArith xs ys t_start t_end
          = some ⟨some beta0, some beta1, t_end - t_start⟩
        ∧ ∀ a b : ℚ,
            sumSquaredResiduals xs ys beta1 beta0 ≤ sumSquaredResiduals xs ys a b := by
  have hpts : lrPoints xs ys = xs.zip ys := lrPoints_eq_zip xs ys hsize
  have htot := lrTotals_zip xs ys hlen
  have hden : (xs.length : ℚ) * (xs.map (fun v => v * v)).sum - xs.sum * xs.sum ≠ 0 :=
    ne_of_gt (lr_den_pos xs hdist)
  have hcount : (xs.length : ℚ) ≠ 0 := by
    obtain ⟨u, hu, _⟩ := hdist
    have : 0 < xs.length := List.length_pos_of_mem hu
    exact_mod_cast Nat.pos_iff_ne_zero.1 this
  obtain ⟨hN1, hN2⟩ := closed_form_normal_equations (xs.length : ℚ) xs.sum ys.sum
    (List.zipWith (fun u v => u * v) xs ys).sum (xs.map (fun v => v * v)).sum hcount hden
  refine ⟨(ys.sum - ((xs.length : ℚ) * (List.zipWith (fun u v => u * v) xs ys).sum
        - xs.sum * ys.sum)
        / ((xs.length : ℚ) * (xs.map (fun v => v * v)).sum - xs.sum * xs.sum) * xs.sum)
        / (xs.length : ℚ),
    ((xs.length : ℚ) * (List.zipWith (fun u v => u * v) xs ys).sum - xs.sum * ys.sum)
        / ((xs.length : ℚ) * (xs.map (fun v => v * v)).sum - xs.sum * xs.sum), ?_, ?_⟩
  · rw [sequential_lr_eq xs ys t_start t_end hlen, hpts, htot, lr_n_eq xs hsize,
      lrFinish_exact, lrNumerator_exact, lrDenominator_exact]
    simp only [fdiv_exact, Int.cast_natCast, if_neg hden, if_neg hcount, Option.some_bind]
  · intro a b
    unfold sumSquaredResiduals
    apply normal_equations_minimise
    · rw [htot]; exact hN1
    · rw [htot, length_zip_of_eq xs ys hlen]; exact hN2

/-- Witness for C17: on the data of `main` the fitted line `y = 3/5 x + 11/5` has a sum
of squared residuals of 12/5, and no line has less. -/
theorem C17_least_squares_optimality_witness :
    main_x.length = main_y.length ∧ (main_x.length : Int) ≤ INT_MAX
      ∧ (∃ u ∈ main_x, ∃ v ∈ main_x, u ≠ v)
      ∧ sumSquaredResiduals main_x main_y (3 / 5) (11 / 5) = 12 / 5
      ∧ ∃ beta0 beta1 : ℚ,
          sequential_lr exactArith main_x main_y 0 1 = some ⟨some beta0, some beta1, 1 - 0⟩
            ∧ ∀ a b : ℚ,
                sumSquaredResiduals main_x main_y beta1 beta0
                  ≤ sumSquaredResiduals main_x main_y a b :=
  ⟨rfl, by decide, ⟨1, by simp [main_x], 2, by simp [main_x], by norm_num⟩,
    by norm_num [sumSquaredResiduals, main_x, main_y],
    C17_least_squares_optimality main_x main_y 0 1 rfl (by decide)
      ⟨1, by simp [main_x], 2, by simp [main_x], by norm_num⟩⟩

/-- C18: for every non-empty integer series whose exact sum is a 32-bit `int`,
`sequentialMin S ≤ sequentialAverage S ≤ sequentialMax S`, the average being the exact
quotient or the quotient rounded to a `double`, and in particular
`sequentialMin S ≤ sequentialMax S`. -/
theorem C18_min_le_average_le_max (S : List Int) (hne : S ≠ [])
    (hsum : INT_MIN ≤ S.sum ∧ S.sum ≤ INT_MAX) :
    (sequentialMin S : ℚ) ≤ sequentialAverage exactArith S
      ∧ sequentialAverage exactArith S ≤ (sequentialMax S : ℚ)
      ∧ (sequentialMin S : ℚ) ≤ sequentialAverage roundDouble S
      ∧ sequentialAverage roundDouble S ≤ (sequentialMax S : ℚ)
      ∧ sequentialMin S ≤ sequentialMax S := by
  have hempty : S.isEmpty = false := by
    cases S with
    | nil => exact absurd rfl hne
    | cons _ _ => rfl
  have havg : sequentialAverage exactArith S = (S.sum : ℚ) / (S.length : ℚ) := by
    rw [sequentialAverage_exact, sequentialSum_eq_sum S hsum, hempty]; rfl
  have hdbl : sequentialAverage roundDouble S
      = roundDouble ((S.sum : ℚ) / (S.length : ℚ)) := by
    rw [sequentialAverage_eq, sequentialSum_eq_sum S hsum, hempty]; rfl
  obtain ⟨h1, h2⟩ := mean_between S hne
  have hmag := mean_abs_lt S hne hsum
  refine ⟨by rw [havg]; exact h1, by rw [havg]; exact h2, ?_, ?_, ?_⟩
  · rw [hdbl]; exact le_roundDouble _ _ hmag h1
  · rw [hdbl]; exact roundDouble_le _ _ hmag h2
  · exact sequentialMin_le S _ (sequentialMax_mem S hne)

/-- Witness for C18: minimum -3, average 10/3, maximum 9. -/
theorem C18_min_le_average_le_max_witness :
    [4, -3, 9] ≠ ([] : List Int)
      ∧ (INT_MIN ≤ List.sum [4, -3, 9] ∧ List.sum [4, -3, 9] ≤ INT_MAX)
      ∧ (sequentialMin [4, -3, 9] : ℚ) ≤ sequentialAverage exactArith [4, -3, 9]
      ∧ sequentialAverage exactArith [4, -3, 9] ≤ (sequentialMax [4, -3, 9] : ℚ)
      ∧ (sequentialMin [4, -3, 9] : ℚ) ≤ sequentialAverage roundDouble [4, -3, 9]
      ∧ sequentialAverage roundDouble [4, -3, 9] ≤ (sequentialMax [4, -3, 9] : ℚ)
      ∧ sequentialMin [4, -3, 9] ≤ sequentialMax [4, -3, 9] :=
  ⟨by decide, by decide, C18_min_le_average_le_max [4, -3, 9] (by decide) (by decide)⟩

/-- C19: the input of `main`, the 13 literals followed by 100000 values of
`rand() % 1000`, each between 0 and 999. Whatever these values are, every left-to-right
partial sum lies between 0 and `267 + 100000 * 999 = 99900267`, no addition overflows
in `sequentialSum` nor, under a schedule that runs each iteration once, in the workers
or the combination of `parallelSum`, both return the exact sum, `sequentialMin` is 0 or
1, and `sequentialMax` is at least 66 and at most 999. -/
theorem C19_demonstration_input (filler : List Int) (slices : List (List Nat))
    (hcount : filler.length = 100000) (hrand : ∀ v ∈ filler, 0 ≤ v ∧ v ≤ 999)
    (hpart : isPartition 0 (main_data ++ filler).length slices) :
    (∀ k, 0 ≤ ((main_data ++ filler).take k).sum
        ∧ ((main_data ++ filler).take k).sum ≤ 99900267)
      ∧ (main_data ++ filler).sum ≤ 99900267
      ∧ sequentialSumChecked (main_data ++ filler) = some (main_data ++ filler).sum
      ∧ parallelSumChecked (main_data ++ filler) slices
          = some (some (main_data ++ filler).sum)
      ∧ sequentialSum (main_data ++ filler) = (main_data ++ filler).sum
      ∧ parallelSum (main_data ++ filler) slices = some (main_data ++ filler).sum
      ∧ (sequentialMin (main_data ++ filler) = 0 ∨ sequentialMin (main_data ++ filler) = 1)
      ∧ 66 ≤ sequentialMax (main_data ++ filler)
      ∧ sequentialMax (main_data ++ filler) ≤ 999 := by
  have hlit : ∀ v ∈ main_data, 0 ≤ v ∧ v ≤ 999 := by decide
  have hall : ∀ v ∈ main_data ++ filler, 0 ≤ v ∧ v ≤ 999 := by
    intro v hv
    rcases List.mem_append.1 hv with h | h
    · exact hlit v h
    · exact hrand v h
  have hnonneg : ∀ v ∈ main_data ++ filler, 0 ≤ v := fun v hv => (hall v hv).1
  have hfill : filler.sum ≤ 99900000 := by
    have := sum_le_length_mul filler 999 (fun v hv => (hrand v hv).2)
    rw [hcount] at this
    omega
  have hlitsum : main_data.sum = 267 := by decide
  have htotal : (main_data ++ filler).sum ≤ 99900267 := by
    rw [List.sum_append, hlitsum]; omega
  have hsums : ∀ k, 0 ≤ ((main_data ++ filler).take k).sum
      ∧ ((main_data ++ filler).take k).sum ≤ 99900267 := by
    intro k
    have := take_sum_bounds (main_data ++ filler) hnonneg k
    omega
  have hrange : INT_MIN ≤ (main_data ++ filler).sum ∧ (main_data ++ filler).sum ≤ INT_MAX := by
    have := sum_nonneg_of_nonneg _ hnonneg
    simp only [INT_MIN, INT_MAX]
    omega
  have hne : main_data ++ filler ≠ [] := by simp [main_data]
  have hone : (1 : Int) ∈ main_data ++ filler :=
    List.mem_append_left _ (by decide)
  have h66 : (66 : Int) ∈ main_data ++ filler :=
    List.mem_append_left _ (by decide)
  refine ⟨hsums, htotal, ?_, ?_, sequentialSum_eq_sum _ hrange, ?_, ?_, ?_, ?_⟩
  · apply sequentialSumChecked_eq
    intro k _
    have := hsums k
    simp only [INT_MIN, INT_MAX]
    omega
  · exact parallelSumChecked_eq _ slices hnonneg hrange.2 hpart
  · rw [parallelSum_eq _ slices hpart, sequentialSum_eq_sum _ hrange]
  · have h0 := (hall _ (sequentialMin_mem _ hne)).1
    have h1 := sequentialMin_le _ 1 hone
    omega
  · exact le_sequentialMax _ 66 h66
  · exact (hall _ (sequentialMax_mem _ hne)).2

/-- Witness for C19: every random value is 7, and two workers take the indices below
50000 and from 50000 on. -/
theorem C19_demonstration_input_witness :
    (List.replicate 100000 (7 : Int)).length = 100000
      ∧ sequentialSumChecked (main_data ++ List.replicate 100000 7)
          = some (main_data ++ List.replicate 100000 7).sum
      ∧ parallelSumChecked (main_data ++ List.replicate 100000 7)
            [List.range' 0 50000, List.range' 50000 50013]
          = some (some (main_data ++ List.replicate 100000 7).sum)
      ∧ (sequentialMin (main_data ++ List.replicate 100000 7) = 0
          ∨ sequentialMin (main_data ++ List.replicate 100000 7) = 1)
      ∧ 66 ≤ sequentialMax (main_data ++ List.replicate 100000 7)
      ∧ sequentialMax (main_data ++ List.replicate 100000 7) ≤ 999 :=
  have h := C19_demonstration_input (List.replicate 100000 7)
    [List.range' 0 50000, List.range' 50000 50013] (List.length_replicate _ _)
    (fun v hv => by rw [List.eq_of_mem_replicate hv]; decide)
    (by
      have hlen : (main_data ++ List.replicate 100000 (7 : Int)).length = 100013 := by
        rw [List.length_append, List.length_replicate]; rfl
      unfold isPartition
      rw [hlen]
      have hcat : [List.range' 0 50000, List.range' 50000 50013].flatten
          = List.range' 0 100013 := by
        rw [List.flatten_cons, List.flatten_cons, List.flatten_nil, List.append_nil]
        exact List.range'_append 0 50000 50013 1
      rw [hcat])
  ⟨List.length_replicate _ _, h.2.2.1, h.2.2.2.1, h.2.2.2.2.2.2.1, h.2.2.2.2.2.2.2.1,
    h.2.2.2.2.2.2.2.2⟩

end LP5
